import Mathlib

/-!
# A resizable worker pool (`main.go`)

A shallow embedding of the Go worker pool: the `WorkerPool` structure with its
four operations `AddWorker`, `RemoveWorker`, `AddJob`, `Shutdown`, the worker
goroutine spawned by `AddWorker`, and the command loop of `main`.

Concurrency is embedded as an interleaving of atomic steps of one calling
thread (the thread of `main`, which is the only caller of the pool's
operations) and of the worker goroutines.  Go's `int` is embedded as `Int`:
the id counter starts at 1 and grows by one for each `AddWorker` call, so it
would leave the 64-bit range only after `2 ^ 63 - 1` calls.
-/

namespace GoPool

/-! ## Data model -/

/-- The job of `main.go`: one opaque payload. -/
structure Job where
  Entity : String
deriving DecidableEq, Repr

/-- The constructor `NewJob`. -/
def NewJob (entity : String) : Job := { Entity := entity }

/-- The lines the pool and its workers write to standard output, by their
information content (the `fmt.Printf` calls of lines 46, 66, 68, 74, 84, 94). -/
inductive Note where
  | noWorkers (payload : String)
  | processing (id : Int) (payload : String)
  | exiting (id : Int)
  | added (id : Int)
  | signalled (id : Int)
deriving DecidableEq, Repr

/-- The buffered channel `jobs chan Job`: capacity, buffered values (head
first), and whether `close` was applied. -/
structure JobChan where
  cap : Nat
  buf : List Job
  closed : Bool
deriving DecidableEq, Repr

/-- The fields of the Go structure `WorkerPool`.  The map `quitChans` is an
association list with one entry for each key; a channel is named by its
index in the table of allocated quit channels.  `wg` is the counter of the
`sync.WaitGroup`.  The mutex is not a field: each critical section is one
atomic step. -/
structure WorkerPool where
  nextWorkerId : Int
  jobs : JobChan
  quitChans : List (Int × Nat)
  wg : Nat
deriving DecidableEq, Repr

/-- The goroutine started by `AddWorker`: the id and quit channel it was
given, and whether its loop is still running. -/
structure Goroutine where
  id : Int
  quit : Nat
  running : Bool
deriving DecidableEq, Repr

/-- Where the calling thread stands: between calls, blocked in the send
`wp.jobs <- job` of `AddJob`, blocked in `wp.wg.Wait()` of `Shutdown`, or
dead because the process panicked. -/
inductive Caller where
  | idle
  | sending (job : Job)
  | waiting
  | crashed
deriving DecidableEq, Repr

/-- The pool with its runtime: the quit channels allocated so far (`true` is
closed), the goroutines spawned so far, the output written so far, and the
calling thread. -/
structure World where
  wp : WorkerPool
  chans : List Bool
  goroutines : List Goroutine
  out : List Note
  caller : Caller
deriving DecidableEq, Repr

/-- How a call of a pool operation ends: it returns a value, it blocks (the
caller is parked), or it panics. -/
inductive Outcome (α : Type) where
  | returned (a : α) (w : World)
  | parked (w : World)
  | panicked (w : World)

/-- The world a call leaves behind. -/
def Outcome.world {α : Type} : Outcome α → World
  | .returned _ w => w
  | .parked w => w
  | .panicked w => w

/-! ## Go primitives -/

/-- Map lookup `m[id]` with the comma-ok result. -/
def mapGet (m : List (Int × Nat)) (id : Int) : Option Nat :=
  (m.find? (fun e => e.1 == id)).map (fun e => e.2)

/-- Map removal `delete(m, id)`. -/
def mapDelete (m : List (Int × Nat)) (id : Int) : List (Int × Nat) :=
  m.filter (fun e => e.1 != id)

/-- Map assignment `m[id] = quit`. -/
def mapSet (m : List (Int × Nat)) (id : Int) (quit : Nat) : List (Int × Nat) :=
  mapDelete m id ++ [(id, quit)]

/-- The builtin `close` on a quit channel: closing a closed channel panics
(`none`). -/
def closeChan (chans : List Bool) (quit : Nat) : Option (List Bool) :=
  match chans[quit]? with
  | some false => some (chans.set quit true)
  | _ => none

/-- The send `wp.jobs <- job`: a panic on a closed channel, an append when the
buffer has room, and else the sender is parked until a receiver takes a
value. -/
def send (w : World) (job : Job) : Outcome Unit :=
  if w.wp.jobs.closed then
    .panicked { w with caller := .crashed }
  else if w.wp.jobs.buf.length < w.wp.jobs.cap then
    .returned () { w with wp := { w.wp with jobs := { w.wp.jobs with buf := w.wp.jobs.buf ++ [job] } } }
  else
    .parked { w with caller := .sending job }

/-- The receive `<-wp.jobs` when it is ready: the head of the buffer (a parked
sender then puts its value at the tail and is released), the value of a parked
sender when nothing is buffered, or the zero `Job` of a closed and drained
channel.  `none` when the receive is not ready. -/
def recv (w : World) : Option (Job × World) :=
  match w.wp.jobs.buf, w.caller with
  | j :: rest, .sending p =>
      some (j, { w with wp := { w.wp with jobs := { w.wp.jobs with buf := rest ++ [p] } },
                        caller := .idle })
  | j :: rest, _ =>
      some (j, { w with wp := { w.wp with jobs := { w.wp.jobs with buf := rest } } })
  | [], .sending p => some (p, { w with caller := .idle })
  | [], _ => if w.wp.jobs.closed then some ({ Entity := "" }, w) else none

/-- The builtin `close(wp.jobs)`: closing a closed channel panics. -/
def closeJobs (w : World) : Outcome Unit :=
  if w.wp.jobs.closed then
    .panicked { w with caller := .crashed }
  else
    .returned () { w with wp := { w.wp with jobs := { w.wp.jobs with closed := true } },
                          caller := .idle }

/-! ## The operations of the pool -/

/-- The constructor `NewWorkerPool(jobsChanSize)`; a negative size has no
pool (`make` panics), so the size is a natural number. -/
def NewWorkerPool (jobsChanSize : Nat) : World :=
  { wp := { nextWorkerId := 1,
            jobs := { cap := jobsChanSize, buf := [], closed := false },
            quitChans := [],
            wg := 0 },
    chans := [],
    goroutines := [],
    out := [],
    caller := .idle }

/-- The method `AddJob`: with an empty registry the job is reported and
dropped, else it is sent on the job channel. -/
def AddJob (w : World) (job : Job) : Outcome Unit :=
  let available := w.wp.quitChans.length
  if available == 0 then
    .returned () { w with out := w.out ++ [Note.noWorkers job.Entity] }
  else
    send w job

/-- The method `AddWorker`: takes the next id, makes a quit channel, registers
it, counts the worker in the wait group, starts the goroutine, reports, and
returns the id. -/
def AddWorker (w : World) : Int × World :=
  let id := w.wp.nextWorkerId
  let quit := w.chans.length
  (id, { w with
      wp := { w.wp with
        nextWorkerId := id + 1,
        quitChans := mapSet w.wp.quitChans id quit,
        wg := w.wp.wg + 1 },
      chans := w.chans ++ [false],
      goroutines := w.goroutines ++ [{ id := id, quit := quit, running := true }],
      out := w.out ++ [Note.added id] })

/-- The method `RemoveWorker`: when the id is registered, closes its quit
channel, deletes the entry and reports; returns whether it was registered. -/
def RemoveWorker (w : World) (id : Int) : Outcome Bool :=
  match mapGet w.wp.quitChans id with
  | some quit =>
      match closeChan w.chans quit with
      | some chans =>
          .returned true { w with
            wp := { w.wp with quitChans := mapDelete w.wp.quitChans id },
            chans := chans,
            out := w.out ++ [Note.signalled id] }
      | none => .panicked { w with caller := .crashed }
  | none => .returned false w

/-- The loop `for id, quit := range wp.quitChans` of `Shutdown`: closes each
registered quit channel and reports it.  Go leaves the order of the entries
open; the order of the list is taken.  The result is whether the loop came
to its end (`false` is a panic of `close`) with the channels and the output
at that point. -/
def fireAll : List (Int × Nat) → List Bool → List Note → Bool × List Bool × List Note
  | [], chans, out => (true, chans, out)
  | (id, quit) :: rest, chans, out =>
      match closeChan chans quit with
      | some chans1 => fireAll rest chans1 (out ++ [Note.signalled id])
      | none => (false, chans, out)

/-- The method `Shutdown` up to the return of `wp.wg.Wait()`: fires every
registered quit channel, empties the registry, and waits for the wait group;
when the counter is already zero it goes on to close the job channel. -/
def Shutdown (w : World) : Outcome Unit :=
  match fireAll w.wp.quitChans w.chans w.out with
  | (false, chans, out) =>
      .panicked { w with chans := chans, out := out, caller := .crashed }
  | (true, chans, out) =>
      let w1 : World := { w with wp := { w.wp with quitChans := [] }, chans := chans, out := out }
      if w1.wp.wg == 0 then closeJobs w1 else .parked { w1 with caller := .waiting }

/-! ## The worker goroutine -/

/-- The branch `case job := <-wp.jobs` of goroutine `k`: it reports the job
and stays in its loop. -/
def stepRecvJob (w : World) (k : Nat) : Option World :=
  match w.goroutines[k]? with
  | some g =>
      if g.running then
        match recv w with
        | some (job, w1) => some { w1 with out := w1.out ++ [Note.processing g.id job.Entity] }
        | none => none
      else none
  | none => none

/-- The branch `case <-quit` of goroutine `k`, ready once its quit channel is
closed: it reports, returns, and the deferred `wp.wg.Done()` runs (a counter
below zero panics). -/
def stepRecvQuit (w : World) (k : Nat) : Option World :=
  match w.goroutines[k]? with
  | some g =>
      if g.running && (w.chans[g.quit]? == some true) then
        let w1 : World := { w with
          out := w.out ++ [Note.exiting g.id],
          goroutines := w.goroutines.set k { g with running := false } }
        if w1.wp.wg == 0 then some { w1 with caller := .crashed }
        else some { w1 with wp := { w1.wp with wg := w1.wp.wg - 1 } }
      else none
  | none => none

/-! ## Interleaved executions -/

/-- The atomic steps: a call of one of the four operations by the calling
thread, one turn of the `select` of goroutine `k`, and the return of
`wp.wg.Wait()` in `Shutdown` followed by `close(wp.jobs)`. -/
inductive Event where
  | addWorker
  | removeWorker (id : Int)
  | addJob (job : Job)
  | shutdown
  | recvJob (k : Nat)
  | recvQuit (k : Nat)
  | wake
deriving DecidableEq, Repr

/-- One step; `none` when the event cannot happen in this world (a call while
the caller is blocked, a branch that is not ready, anything after a panic). -/
def step (w : World) (e : Event) : Option World :=
  match w.caller, e with
  | .crashed, _ => none
  | .idle, .addWorker => some (AddWorker w).2
  | .idle, .removeWorker id => some (RemoveWorker w id).world
  | .idle, .addJob job => some (AddJob w job).world
  | .idle, .shutdown => some (Shutdown w).world
  | .waiting, .wake => if w.wp.wg == 0 then some (closeJobs w).world else none
  | _, .recvJob k => stepRecvJob w k
  | _, .recvQuit k => stepRecvQuit w k
  | _, _ => none

/-- The execution of a list of events, each from the world the one before
left. -/
def exec : World → List Event → Option World
  | w, [] => some w
  | w, e :: es =>
      match step w e with
      | some w1 => exec w1 es
      | none => none

/-- The ids the `AddWorker` calls of an execution return, in call order. -/
def returnedIds : World → List Event → List Int
  | _, [] => []
  | w, e :: es =>
      match step w e with
      | some w1 =>
          (if e = Event.addWorker then [(AddWorker w).1] else []) ++ returnedIds w1 es
      | none => []

/-- The worlds a pool made by `NewWorkerPool` can be in. -/
def Reachable (w : World) : Prop :=
  ∃ (size : Nat) (es : List Event), exec (NewWorkerPool size) es = some w

/-! ## The command loop of `main` -/

/-- A Go string is a sequence of bytes; this gives the bytes of a text of
ASCII characters. -/
def ascii (s : String) : List UInt8 :=
  s.data.map (fun c => c.toNat.toUInt8)

/-- The UTF-8 encodings of the characters for which the standard function
`unicode.IsSpace` holds: U+0009 to U+000D, U+0020, U+0085, U+00A0, U+1680,
U+2000 to U+200A, U+2028, U+2029, U+202F, U+205F, U+3000. -/
def spaceEncodings : List (List UInt8) :=
  [[0x09], [0x0A], [0x0B], [0x0C], [0x0D], [0x20],
   [0xC2, 0x85], [0xC2, 0xA0],
   [0xE1, 0x9A, 0x80],
   [0xE2, 0x80, 0x80], [0xE2, 0x80, 0x81], [0xE2, 0x80, 0x82], [0xE2, 0x80, 0x83],
   [0xE2, 0x80, 0x84], [0xE2, 0x80, 0x85], [0xE2, 0x80, 0x86], [0xE2, 0x80, 0x87],
   [0xE2, 0x80, 0x88], [0xE2, 0x80, 0x89], [0xE2, 0x80, 0x8A],
   [0xE2, 0x80, 0xA8], [0xE2, 0x80, 0xA9], [0xE2, 0x80, 0xAF],
   [0xE2, 0x81, 0x9F],
   [0xE3, 0x80, 0x80]]

/-- Whether the bytes `s` begin with the bytes `enc`. -/
def startsWith : List UInt8 → List UInt8 → Bool
  | [], _ => true
  | _ :: _, [] => false
  | a :: enc, b :: s => a == b && startsWith enc s

/-- The number of bytes of the white space character that Go decodes at the
front of `s`; zero when the character there is not white space (an invalid
byte decodes to `utf8.RuneError`, which is not white space). -/
def spaceLen (s : List UInt8) : Nat :=
  match spaceEncodings.find? (fun enc => startsWith enc s) with
  | some enc => enc.length
  | none => 0

/-- The number of bytes of the white space character that Go decodes at the
end of a string (`utf8.DecodeLastRuneInString`), on the bytes `r` of the
string last byte first. -/
def spaceLenBack (r : List UInt8) : Nat :=
  match spaceEncodings.find? (fun enc => startsWith enc.reverse r) with
  | some enc => enc.length
  | none => 0

/-- Drops white space characters from the front as long as there are any;
`len` gives the width of the white space character at the front and `skip`
counts the bytes of it still to drop. -/
def dropSpaces (len : List UInt8 → Nat) : Nat → List UInt8 → List UInt8
  | _, [] => []
  | skip + 1, _ :: rest => dropSpaces len skip rest
  | 0, b :: rest =>
      match len (b :: rest) with
      | 0 => b :: rest
      | n + 1 => dropSpaces len n rest

/-- The standard function `strings.TrimSpace`: leading white space dropped
(`TrimLeftFunc`), then trailing white space (`TrimRightFunc`). -/
def TrimSpace (s : List UInt8) : List UInt8 :=
  (dropSpaces spaceLenBack 0 (dropSpaces spaceLen 0 s).reverse).reverse

/-- The scan of `strings.Fields`: `skip` counts the bytes of a white space
character still to pass, `cur` holds the field under way, last byte first. -/
def fieldsAux : Nat → List UInt8 → List UInt8 → List (List UInt8)
  | _, [], cur => if cur.isEmpty then [] else [cur.reverse]
  | skip + 1, _ :: rest, cur => fieldsAux skip rest cur
  | 0, b :: rest, cur =>
      match spaceLen (b :: rest) with
      | 0 => fieldsAux 0 rest (b :: cur)
      | n + 1 =>
          if cur.isEmpty then fieldsAux n rest [] else cur.reverse :: fieldsAux n rest []

/-- The standard function `strings.Fields`: the maximal runs of bytes between
white space characters. -/
def Fields (s : List UInt8) : List (List UInt8) :=
  fieldsAux 0 s []

/-- The value of a run of decimal digits, `none` when a byte is not a
digit. -/
def parseDigits : List UInt8 → Nat → Option Nat
  | [], acc => some acc
  | b :: bs, acc =>
      if 0x30 ≤ b.toNat ∧ b.toNat ≤ 0x39 then parseDigits bs (acc * 10 + (b.toNat - 0x30))
      else none

/-- The standard function `strconv.Atoi` on a 64-bit platform: an optional
sign, then one or more decimal digits, with a value that fits `int`; `none`
is an error. -/
def Atoi (s : List UInt8) : Option Int :=
  let (neg, digits) : Bool × List UInt8 :=
    match s with
    | [] => (false, [])
    | b :: rest =>
        if b == 0x2B then (false, rest)
        else if b == 0x2D then (true, rest)
        else (false, b :: rest)
  if digits.isEmpty then none
  else
    match parseDigits digits 0 with
    | none => none
    | some n =>
        if neg then (if n ≤ 2 ^ 63 then some (-(n : Int)) else none)
        else (if n < 2 ^ 63 then some (n : Int) else none)

/-- The constant `bufio.MaxScanTokenSize`: the size of the buffer in which the
scanner must find a line together with its newline. -/
def MaxScanTokenSize : Nat := 64 * 1024

/-- The function `dropCR` of `bufio.ScanLines`: one carriage return at the end
of the line is dropped. -/
def dropCR (data : List UInt8) : List UInt8 :=
  if data.getLast? == some 0x0D then data.dropLast else data

/-- The calls `scanner.Scan()` and `scanner.Text()` on a line of input, given
by the bytes `raw` that stand before its newline (or before the end of the
input): a line that does not fit the buffer with its newline makes `Scan`
return false (`none`), else the text is the line without a carriage return
at its end. -/
def scanText (raw : List UInt8) : Option (List UInt8) :=
  if MaxScanTokenSize ≤ raw.length then none else some (dropCR raw)

/-- What one turn of the loop of `main` does with the line of input it
meets. -/
inductive Command where
  /-- The line is empty after trimming: `continue`. -/
  | skip
  /-- The call `wp.AddWorker()`. -/
  | addWorker
  /-- The usage line of a `remove` with another number of fields than two; no
  call. -/
  | usage
  /-- The call `wp.RemoveWorker(id)`, with the report when it returns false. -/
  | removeWorker (id : Int)
  /-- The report for an argument that `strconv.Atoi` rejects; no call. -/
  | invalid (arg : List UInt8)
  /-- The call `wp.Shutdown()` of the `quit` case, followed by the return from
  `main`. -/
  | shutdown
  /-- The call `wp.AddJob(NewJob(line))` with the bytes of `line`. -/
  | addJob (payload : List UInt8)
  /-- The index `parts[0]` is out of range. -/
  | crash
  /-- The call `scanner.Scan()` returns false on a line too long for the
  scanner: the loop ends and `main` calls `wp.Shutdown()` after it. -/
  | endLoop
deriving DecidableEq, Repr

/-- The `switch parts[0]` of the loop of `main`, on the trimmed line and its
fields. -/
def dispatchParts (line : List UInt8) (parts : List (List UInt8)) : Command :=
  match parts with
  | [] => .crash
  | p0 :: rest =>
      if p0 == ascii "add" then .addWorker
      else if p0 == ascii "remove" then
        if parts.length != 2 then .usage
        else
          match rest with
          | [arg] =>
              match Atoi arg with
              | some id => .removeWorker id
              | none => .invalid arg
          | _ => .usage
      else if p0 == ascii "quit" then .shutdown
      else .addJob line

/-- The body of the loop `for scanner.Scan()` of `main` on the text of one
line. -/
def dispatch (text : List UInt8) : Command :=
  let line := TrimSpace text
  if line.isEmpty then .skip else dispatchParts line (Fields line)

/-- One turn of the loop `for scanner.Scan()` of `main` on a line of input:
the scan of the line, then the body of the loop on its text. -/
def turn (raw : List UInt8) : Command :=
  match scanText raw with
  | none => .endLoop
  | some text => dispatch text

/-! ## Invariants -/

/-- What holds of the registry in every reachable world: one entry for each
id and each channel, every registered channel is open, every registered id
was issued, the wait group counts the running goroutines, a running goroutine
whose quit channel is open is registered, and every entry has its running
goroutine. -/
structure Inv (w : World) : Prop where
  keys : (w.wp.quitChans.map Prod.fst).Nodup
  handles : (w.wp.quitChans.map Prod.snd).Nodup
  regOpen : ∀ id quit, (id, quit) ∈ w.wp.quitChans → w.chans[quit]? = some false
  regIds : ∀ id quit, (id, quit) ∈ w.wp.quitChans → 1 ≤ id ∧ id < w.wp.nextWorkerId
  nextPos : 1 ≤ w.wp.nextWorkerId
  wgCount : w.wp.wg = w.goroutines.countP (fun g => g.running)
  runReg : ∀ g ∈ w.goroutines, g.running = true →
    w.chans[g.quit]? = some true ∨ (g.id, g.quit) ∈ w.wp.quitChans
  regRun : ∀ id quit, (id, quit) ∈ w.wp.quitChans →
    ({ id := id, quit := quit, running := true } : Goroutine) ∈ w.goroutines

/-- What holds of a blocked caller: a parked sender was admitted to an open
queue, a caller in `Wait` has emptied the registry. -/
structure CallerInv (w : World) : Prop where
  parkedSend : ∀ p, w.caller = .sending p → w.wp.quitChans ≠ [] ∧ w.wp.jobs.closed = false
  parkedWait : w.caller = .waiting → w.wp.quitChans = []

/-- The world `Shutdown` reaches when `Wait` is entered: the registry is
empty and the registered channels are closed. -/
def Fired (w w1 : World) : Prop :=
  w1.wp = { w.wp with quitChans := [] } ∧
  w1.goroutines = w.goroutines ∧
  w1.caller = w.caller ∧
  w1.out = w.out ++ w.wp.quitChans.map (fun e => Note.signalled e.1) ∧
  (∀ id quit, (id, quit) ∈ w.wp.quitChans → w1.chans[quit]? = some true) ∧
  (∀ i : Nat, w.chans[i]? = some true → w1.chans[i]? = some true)

/-! ## More definitions -/

/-- Whether the event is a call of one of the four operations. -/
def isCall : Event → Bool
  | .addWorker => true
  | .removeWorker _ => true
  | .addJob _ => true
  | .shutdown => true
  | _ => false

/-- Whether no `AddWorker` call comes after a `Shutdown` call. -/
def noAddAfterShutdown : List Event → Bool
  | [] => true
  | .shutdown :: es => es.all (fun e => e != .addWorker)
  | _ :: es => noAddAfterShutdown es

/-- The number of steps a `Shutdown` blocked in `Wait` still needs: one for
each buffered job, one for each running goroutine, one for its own return. -/
def waitMeasure (w : World) : Nat :=
  w.wp.jobs.buf.length + w.wp.wg + (if w.caller = .waiting then 1 else 0)

/-- The ids of the goroutines spawned so far, in the order of their start. -/
def spawnedIds (w : World) : List Int :=
  w.goroutines.map (fun g => g.id)

/-- Every goroutine spawned so far has left its loop. -/
def Stopped (w : World) : Prop :=
  ∀ g ∈ w.goroutines, g.running = false

/-- The caller is inside `Shutdown`, blocked in `Wait`. -/
structure Waiting (w : World) : Prop where
  inv : Inv w
  reg : w.wp.quitChans = []
  caller : w.caller = .waiting
  isOpen : w.wp.jobs.closed = false

/-- The world after `Shutdown` has returned, as long as no worker is added. -/
structure Done (w : World) : Prop where
  inv : Inv w
  reg : w.wp.quitChans = []
  caller : w.caller = .idle
  closed : w.wp.jobs.closed = true
  wg : w.wp.wg = 0

/-- The world after a second `Shutdown` has panicked. -/
structure Dead (w : World) : Prop where
  inv : Inv w
  reg : w.wp.quitChans = []
  caller : w.caller = .crashed
  closed : w.wp.jobs.closed = true
  wg : w.wp.wg = 0

/-- A `Shutdown` on a closed queue is under way or has panicked: the caller is
blocked in `Wait` or dead. -/
structure Doomed (w : World) : Prop where
  inv : Inv w
  closed : w.wp.jobs.closed = true
  caller : w.caller = .waiting ∨ w.caller = .crashed

/-- The queue is open and no `Shutdown` is under way. -/
structure OpenPhase (w : World) : Prop where
  inv : Inv w
  cinv : CallerInv w
  isOpen : w.wp.jobs.closed = false
  caller : w.caller ≠ .waiting

/-! ## Inversion of a step -/

theorem step_some {w w1 : World} {e : Event} (h : step w e = some w1) :
    (w.caller = .idle ∧ e = .addWorker ∧ w1 = (AddWorker w).2) ∨
    (w.caller = .idle ∧ ∃ id, e = .removeWorker id ∧ w1 = (RemoveWorker w id).world) ∨
    (w.caller = .idle ∧ ∃ job, e = .addJob job ∧ w1 = (AddJob w job).world) ∨
    (w.caller = .idle ∧ e = .shutdown ∧ w1 = (Shutdown w).world) ∨
    (w.caller = .waiting ∧ e = .wake ∧ w.wp.wg = 0 ∧ w1 = (closeJobs w).world) ∨
    (w.caller ≠ .crashed ∧ ∃ k, e = .recvJob k ∧ stepRecvJob w k = some w1) ∨
    (w.caller ≠ .crashed ∧ ∃ k, e = .recvQuit k ∧ stepRecvQuit w k = some w1) := by
  unfold step at h
  split at h <;> simp_all

theorem exec_cons (w : World) (e : Event) (es : List Event) (w2 : World) :
    exec w (e :: es) = some w2 ↔ ∃ w1, step w e = some w1 ∧ exec w1 es = some w2 := by
  simp only [exec]
  cases step w e <;> simp

theorem exec_append (w : World) (es fs : List Event) (w2 : World) :
    exec w (es ++ fs) = some w2 ↔ ∃ w1, exec w es = some w1 ∧ exec w1 fs = some w2 := by
  induction es generalizing w with
  | nil => simp [exec]
  | cons e es ih =>
      simp only [List.cons_append, exec_cons, ih]
      constructor
      · rintro ⟨a, ha, b, hb, hc⟩
        exact ⟨b, ⟨a, ha, hb⟩, hc⟩
      · rintro ⟨b, ⟨a, ha, hb⟩, hc⟩
        exact ⟨a, ha, b, hb, hc⟩

theorem Reachable.init (size : Nat) : Reachable (NewWorkerPool size) :=
  ⟨size, [], rfl⟩

theorem Reachable.step {w w1 : World} {e : Event} (hw : Reachable w)
    (h : GoPool.step w e = some w1) : Reachable w1 := by
  obtain ⟨size, es, hes⟩ := hw
  exact ⟨size, es ++ [e], (exec_append _ _ _ _).2 ⟨w, hes, by simp [exec, h]⟩⟩

theorem Reachable.exec {w w1 : World} {es : List Event} (hw : Reachable w)
    (h : GoPool.exec w es = some w1) : Reachable w1 := by
  obtain ⟨size, fs, hfs⟩ := hw
  exact ⟨size, fs ++ es, (exec_append _ _ _ _).2 ⟨w, hfs, h⟩⟩

/-! ## Maps and channels -/

theorem mapGet_eq_none {m : List (Int × Nat)} {id : Int} :
    mapGet m id = none ↔ ∀ quit, (id, quit) ∉ m := by
  unfold mapGet
  simp only [Option.map_eq_none', List.find?_eq_none, beq_iff_eq]
  constructor
  · intro h quit hmem
    exact h (id, quit) hmem rfl
  · rintro h ⟨a, b⟩ hmem heq
    simp only at heq
    subst heq
    exact h b hmem

theorem mapGet_mem {m : List (Int × Nat)} {id : Int} {quit : Nat}
    (h : mapGet m id = some quit) : (id, quit) ∈ m := by
  unfold mapGet at h
  simp only [Option.map_eq_some'] at h
  obtain ⟨⟨a, b⟩, hf, hb⟩ := h
  have h1 := List.find?_some hf
  have h2 := List.mem_of_find?_eq_some hf
  simp only [beq_iff_eq] at h1 hb
  subst h1 hb
  exact h2

theorem mapGet_of_mem {m : List (Int × Nat)} {id : Int} {quit : Nat}
    (hk : (m.map Prod.fst).Nodup) (h : (id, quit) ∈ m) : mapGet m id = some quit := by
  induction m with
  | nil => simp at h
  | cons e m ih =>
      obtain ⟨a, b⟩ := e
      simp only [List.map_cons, List.nodup_cons, List.mem_map, not_exists, not_and] at hk
      rcases List.mem_cons.1 h with heq | hmem
      · cases heq
        simp [mapGet]
      · have hne : a ≠ id := by
          intro ha
          exact hk.1 (id, quit) hmem ha.symm
        have := ih hk.2 hmem
        have hb : (a == id) = false := by simpa using hne
        simp only [mapGet, List.find?_cons, hb] at this ⊢
        exact this

theorem mem_mapDelete {m : List (Int × Nat)} {id a : Int} {b : Nat} :
    (a, b) ∈ mapDelete m id ↔ (a, b) ∈ m ∧ a ≠ id := by
  simp [mapDelete]

theorem mem_mapSet {m : List (Int × Nat)} {id a : Int} {quit b : Nat} :
    (a, b) ∈ mapSet m id quit ↔ ((a, b) ∈ m ∧ a ≠ id) ∨ (a = id ∧ b = quit) := by
  simp [mapSet, mem_mapDelete]

theorem closeChan_eq_some {chans chans1 : List Bool} {quit : Nat} :
    closeChan chans quit = some chans1 ↔
      chans[quit]? = some false ∧ chans1 = chans.set quit true := by
  unfold closeChan
  split
  · rename_i h
    simp [h, eq_comm]
  · rename_i h
    constructor
    · intro h1
      cases h1
    · rintro ⟨h1, -⟩
      exact absurd h1 (h)

theorem closeChan_open {chans : List Bool} {quit : Nat} (h : chans[quit]? = some false) :
    closeChan chans quit = some (chans.set quit true) :=
  closeChan_eq_some.2 ⟨h, rfl⟩

theorem getElem?_set_true {chans : List Bool} {quit i : Nat} {b : Bool}
    (h : chans[i]? = some b) :
    (chans.set quit true)[i]? = some (if quit = i then true else b) := by
  rw [List.getElem?_set]
  by_cases hq : quit = i
  · subst hq
    have hlt : quit < chans.length := by
      rcases List.getElem?_eq_some_iff.1 h with ⟨hl, -⟩
      exact hl
    simp [hlt]
  · simp [hq, h]

theorem mapDelete_of_absent {m : List (Int × Nat)} {id : Int}
    (h : ∀ quit, (id, quit) ∉ m) : mapDelete m id = m := by
  unfold mapDelete
  rw [List.filter_eq_self]
  rintro ⟨a, b⟩ hmem
  have : a ≠ id := by
    intro ha
    subst ha
    exact h b hmem
  simpa using this

theorem snd_unique {m : List (Int × Nat)} (hk : (m.map Prod.fst).Nodup)
    {id : Int} {q1 q2 : Nat} (h1 : (id, q1) ∈ m) (h2 : (id, q2) ∈ m) : q1 = q2 := by
  have e1 := mapGet_of_mem hk h1
  have e2 := mapGet_of_mem hk h2
  rw [e1] at e2
  exact Option.some.inj e2

theorem fst_unique {m : List (Int × Nat)} (hh : (m.map Prod.snd).Nodup)
    {a1 a2 : Int} {q : Nat} (h1 : (a1, q) ∈ m) (h2 : (a2, q) ∈ m) : a1 = a2 := by
  induction m with
  | nil => simp at h1
  | cons e m ih =>
      obtain ⟨a, b⟩ := e
      simp only [List.map_cons, List.nodup_cons, List.mem_map, not_exists, not_and] at hh
      rcases List.mem_cons.1 h1 with e1 | m1 <;> rcases List.mem_cons.1 h2 with e2 | m2
      · cases e1
        cases e2
        rfl
      · cases e1
        exact absurd rfl (hh.1 (a2, q) m2)
      · cases e2
        exact absurd rfl (hh.1 (a1, q) m1)
      · exact ih hh.2 m1 m2

theorem mapDelete_keys_nodup {m : List (Int × Nat)} (id : Int)
    (hk : (m.map Prod.fst).Nodup) : ((mapDelete m id).map Prod.fst).Nodup :=
  hk.sublist ((List.filter_sublist m).map Prod.fst)

theorem mapDelete_handles_nodup {m : List (Int × Nat)} (id : Int)
    (hk : (m.map Prod.snd).Nodup) : ((mapDelete m id).map Prod.snd).Nodup :=
  hk.sublist ((List.filter_sublist m).map Prod.snd)

/-! ## The invariant of the registry, the channels and the goroutines -/

theorem Inv.congr {w w1 : World} (h : Inv w)
    (h1 : w1.wp.quitChans = w.wp.quitChans) (h2 : w1.wp.nextWorkerId = w.wp.nextWorkerId)
    (h3 : w1.wp.wg = w.wp.wg) (h4 : w1.chans = w.chans) (h5 : w1.goroutines = w.goroutines) :
    Inv w1 := by
  constructor
  · rw [h1]; exact h.keys
  · rw [h1]; exact h.handles
  · rw [h1, h4]; exact h.regOpen
  · rw [h1, h2]; exact h.regIds
  · rw [h2]; exact h.nextPos
  · rw [h3, h5]; exact h.wgCount
  · rw [h1, h4, h5]; exact h.runReg
  · rw [h1, h5]; exact h.regRun

theorem Inv.handle_lt {w : World} (h : Inv w) {id : Int} {quit : Nat}
    (hm : (id, quit) ∈ w.wp.quitChans) : quit < w.chans.length := by
  rcases List.getElem?_eq_some_iff.1 (h.regOpen id quit hm) with ⟨hl, -⟩
  exact hl

theorem Inv.next_absent {w : World} (h : Inv w) (quit : Nat) :
    (w.wp.nextWorkerId, quit) ∉ w.wp.quitChans := by
  intro hm
  have := (h.regIds _ _ hm).2
  omega

theorem inv_init (size : Nat) : Inv (NewWorkerPool size) := by
  constructor <;> simp [NewWorkerPool]

theorem callerInv_init (size : Nat) : CallerInv (NewWorkerPool size) := by
  constructor <;> simp [NewWorkerPool]

theorem AddWorker_quitChans {w : World} (h : Inv w) :
    (AddWorker w).2.wp.quitChans = w.wp.quitChans ++ [(w.wp.nextWorkerId, w.chans.length)] := by
  simp only [AddWorker, mapSet]
  rw [mapDelete_of_absent (fun q => h.next_absent q)]

theorem inv_AddWorker {w : World} (h : Inv w) : Inv (AddWorker w).2 := by
  have hq := AddWorker_quitChans h
  constructor
  · rw [hq, List.map_append, List.nodup_append]
    refine ⟨h.keys, by simp, ?_⟩
    intro a ha hb
    simp only [List.map_cons, List.map_nil, List.mem_singleton] at hb
    subst hb
    simp only [List.mem_map] at ha
    obtain ⟨⟨x, y⟩, hxy, hx⟩ := ha
    simp only at hx
    subst hx
    exact h.next_absent y hxy
  · rw [hq, List.map_append, List.nodup_append]
    refine ⟨h.handles, by simp, ?_⟩
    intro a ha hb
    simp only [List.map_cons, List.map_nil, List.mem_singleton] at hb
    subst hb
    simp only [List.mem_map] at ha
    obtain ⟨⟨x, y⟩, hxy, hx⟩ := ha
    simp only at hx
    subst hx
    have := h.handle_lt hxy
    omega
  · intro id quit hm
    rw [hq, List.mem_append] at hm
    show (w.chans ++ [false])[quit]? = some false
    rcases hm with hm | hm
    · rw [List.getElem?_append_left (h.handle_lt hm)]
      exact h.regOpen id quit hm
    · simp only [List.mem_singleton, Prod.mk.injEq] at hm
      rw [hm.2]
      simp
  · intro id quit hm
    rw [hq, List.mem_append] at hm
    show 1 ≤ id ∧ id < w.wp.nextWorkerId + 1
    rcases hm with hm | hm
    · have := h.regIds id quit hm
      omega
    · simp only [List.mem_singleton, Prod.mk.injEq] at hm
      have h1 := h.nextPos
      omega
  · show 1 ≤ w.wp.nextWorkerId + 1
    have h1 := h.nextPos
    omega
  · simp only [AddWorker, List.countP_append, h.wgCount]
    simp
  · intro g hg hr
    rw [hq]
    have hg1 : g ∈ w.goroutines ++ [{ id := w.wp.nextWorkerId, quit := w.chans.length, running := true }] := hg
    show (w.chans ++ [false])[g.quit]? = some true ∨ _
    rcases List.mem_append.1 hg1 with hg2 | hg2
    · rcases h.runReg g hg2 hr with hc | hc
      · left
        have hl : g.quit < w.chans.length := by
          rcases List.getElem?_eq_some_iff.1 hc with ⟨hl, -⟩
          exact hl
        rw [List.getElem?_append_left hl]
        exact hc
      · right
        exact List.mem_append_left _ hc
    · right
      simp only [List.mem_singleton] at hg2
      subst hg2
      simp
  · intro id quit hm
    rw [hq, List.mem_append] at hm
    show _ ∈ w.goroutines ++ [_]
    rcases hm with hm | hm
    · exact List.mem_append_left _ (h.regRun id quit hm)
    · simp only [List.mem_singleton, Prod.mk.injEq] at hm
      rw [hm.1, hm.2]
      simp

theorem RemoveWorker_absent {w : World} {id : Int}
    (h : ∀ quit, (id, quit) ∉ w.wp.quitChans) : RemoveWorker w id = .returned false w := by
  unfold RemoveWorker
  rw [mapGet_eq_none.2 h]

theorem RemoveWorker_present {w : World} (h : Inv w) {id : Int} {quit : Nat}
    (hm : (id, quit) ∈ w.wp.quitChans) :
    RemoveWorker w id = .returned true { w with
      wp := { w.wp with quitChans := mapDelete w.wp.quitChans id },
      chans := w.chans.set quit true,
      out := w.out ++ [Note.signalled id] } := by
  unfold RemoveWorker
  rw [mapGet_of_mem h.keys hm]
  simp only
  rw [closeChan_open (h.regOpen id quit hm)]

theorem inv_RemoveWorker {w : World} (h : Inv w) (id : Int) :
    Inv (RemoveWorker w id).world := by
  by_cases hab : ∀ quit, (id, quit) ∉ w.wp.quitChans
  · rw [RemoveWorker_absent hab]
    exact h
  · push_neg at hab
    obtain ⟨quit, hm⟩ := hab
    rw [RemoveWorker_present h hm]
    simp only [Outcome.world]
    constructor
    · exact mapDelete_keys_nodup id h.keys
    · exact mapDelete_handles_nodup id h.handles
    · intro a b hab
      rw [mem_mapDelete] at hab
      have hne : quit ≠ b := by
        intro hq
        subst hq
        exact hab.2 (fst_unique h.handles hab.1 hm)
      show (w.chans.set quit true)[b]? = some false
      rw [List.getElem?_set_ne hne]
      exact h.regOpen a b hab.1
    · intro a b hab
      rw [mem_mapDelete] at hab
      exact h.regIds a b hab.1
    · exact h.nextPos
    · exact h.wgCount
    · intro g hg hr
      show (w.chans.set quit true)[g.quit]? = some true ∨ (g.id, g.quit) ∈ mapDelete w.wp.quitChans id
      rcases h.runReg g hg hr with hc | hc
      · left
        rw [getElem?_set_true hc]
        simp
      · by_cases hid : g.id = id
        · left
          have hq : g.quit = quit := snd_unique h.keys hc (hid ▸ hm)
          rw [hq, getElem?_set_true (h.regOpen id quit hm)]
          simp
        · right
          exact mem_mapDelete.2 ⟨hc, hid⟩
    · intro a b hab
      rw [mem_mapDelete] at hab
      exact h.regRun a b hab.1

theorem fireAll_ok : ∀ (m : List (Int × Nat)) (chans : List Bool) (out : List Note),
    (m.map Prod.snd).Nodup → (∀ id quit, (id, quit) ∈ m → chans[quit]? = some false) →
    ∃ chans1, fireAll m chans out = (true, chans1, out ++ m.map (fun e => Note.signalled e.1)) ∧
      (∀ id quit, (id, quit) ∈ m → chans1[quit]? = some true) ∧
      (∀ i : Nat, chans[i]? = some true → chans1[i]? = some true)
  | [], chans, out, _, _ => ⟨chans, by simp [fireAll]⟩
  | (a, b) :: rest, chans, out, hn, ho => by
      simp only [List.map_cons, List.nodup_cons, List.mem_map, not_exists, not_and] at hn
      have hb : chans[b]? = some false := ho a b (List.mem_cons_self _ _)
      have hrest : ∀ id quit, (id, quit) ∈ rest → (chans.set b true)[quit]? = some false := by
        intro id quit hm
        have hne : b ≠ quit := by
          intro hq
          exact hn.1 (id, quit) hm hq.symm
        rw [List.getElem?_set_ne hne]
        exact ho id quit (List.mem_cons_of_mem _ hm)
      obtain ⟨chans1, h1, h2, h3⟩ :=
        fireAll_ok rest (chans.set b true) (out ++ [Note.signalled a]) hn.2 hrest
      refine ⟨chans1, ?_, ?_, ?_⟩
      · simp only [fireAll, closeChan_open hb, h1]
        simp
      · intro id quit hm
        rcases List.mem_cons.1 hm with he | hm1
        · cases he
          apply h3
          rw [getElem?_set_true hb]
          simp
        · exact h2 id quit hm1
      · intro i hi
        apply h3
        rw [getElem?_set_true hi]
        simp

theorem Shutdown_eq {w : World} (h : Inv w) :
    ∃ w1, Fired w w1 ∧
      Shutdown w = if w1.wp.wg == 0 then closeJobs w1 else .parked { w1 with caller := .waiting } := by
  obtain ⟨chans1, h1, h2, h3⟩ := fireAll_ok w.wp.quitChans w.chans w.out h.handles h.regOpen
  refine ⟨{ w with wp := { w.wp with quitChans := [] }, chans := chans1,
                   out := w.out ++ w.wp.quitChans.map (fun e => Note.signalled e.1) }, ?_, ?_⟩
  · exact ⟨rfl, rfl, rfl, rfl, h2, h3⟩
  · unfold Shutdown
    rw [h1]

theorem inv_Fired {w w1 : World} (h : Inv w) (hf : Fired w w1) : Inv w1 := by
  obtain ⟨f1, f2, f3, f4, f5, f6⟩ := hf
  constructor
  · simp [f1]
  · simp [f1]
  · simp [f1]
  · simp [f1]
  · rw [f1]; exact h.nextPos
  · rw [f1, f2]; exact h.wgCount
  · intro g hg hr
    rw [f2] at hg
    left
    rcases h.runReg g hg hr with hc | hc
    · exact f6 _ hc
    · exact f5 _ _ hc
  · simp [f1]

theorem closeJobs_world_frame (w : World) :
    (closeJobs w).world.wp.quitChans = w.wp.quitChans ∧
    (closeJobs w).world.wp.nextWorkerId = w.wp.nextWorkerId ∧
    (closeJobs w).world.wp.wg = w.wp.wg ∧
    (closeJobs w).world.chans = w.chans ∧
    (closeJobs w).world.goroutines = w.goroutines ∧
    (closeJobs w).world.out = w.out ∧
    (closeJobs w).world.caller ≠ .waiting ∧
    (∀ p, (closeJobs w).world.caller ≠ .sending p) := by
  unfold closeJobs
  split <;> simp [Outcome.world]

theorem inv_closeJobs {w : World} (h : Inv w) : Inv (closeJobs w).world := by
  obtain ⟨h1, h2, h3, h4, h5, -⟩ := closeJobs_world_frame w
  exact h.congr h1 h2 h3 h4 h5

theorem callerInv_closeJobs (w : World) : CallerInv (closeJobs w).world := by
  obtain ⟨-, -, -, -, -, -, h6, h7⟩ := closeJobs_world_frame w
  constructor
  · intro p hp
    exact absurd hp (h7 p)
  · intro hw
    exact absurd hw h6

theorem inv_Shutdown {w : World} (h : Inv w) : Inv (Shutdown w).world := by
  obtain ⟨w1, hf, he⟩ := Shutdown_eq h
  have h1 := inv_Fired h hf
  rw [he]
  split
  · exact inv_closeJobs h1
  · exact h1.congr rfl rfl rfl rfl rfl

theorem callerInv_Shutdown {w : World} (h : Inv w) : CallerInv (Shutdown w).world := by
  obtain ⟨w1, hf, he⟩ := Shutdown_eq h
  rw [he]
  split
  · exact callerInv_closeJobs w1
  · constructor
    · intro p hp
      simp [Outcome.world] at hp
    · intro _
      obtain ⟨f1, -⟩ := hf
      simp [Outcome.world, f1]

theorem AddJob_world_frame (w : World) (job : Job) :
    (AddJob w job).world.wp.quitChans = w.wp.quitChans ∧
    (AddJob w job).world.wp.nextWorkerId = w.wp.nextWorkerId ∧
    (AddJob w job).world.wp.wg = w.wp.wg ∧
    (AddJob w job).world.chans = w.chans ∧
    (AddJob w job).world.goroutines = w.goroutines ∧
    (AddJob w job).world.wp.jobs.closed = w.wp.jobs.closed := by
  unfold AddJob send
  simp only
  split
  · simp [Outcome.world]
  · split
    · simp [Outcome.world]
    · split <;> simp [Outcome.world]

theorem inv_AddJob {w : World} (h : Inv w) (job : Job) : Inv (AddJob w job).world := by
  obtain ⟨h1, h2, h3, h4, h5, -⟩ := AddJob_world_frame w job
  exact h.congr h1 h2 h3 h4 h5

theorem callerInv_AddJob {w : World} (hc : w.caller = .idle) (job : Job) :
    CallerInv (AddJob w job).world := by
  unfold AddJob send
  simp only
  split
  · constructor <;> simp [Outcome.world, hc]
  · rename_i hne
    split
    · constructor <;> simp [Outcome.world]
    · rename_i hcl
      split
      · constructor <;> simp [Outcome.world, hc]
      · constructor
        · intro p _
          simp only [Outcome.world]
          refine ⟨?_, by simpa using hcl⟩
          intro hnil
          simp [hnil] at hne
        · simp [Outcome.world]

theorem recv_frame {w w1 : World} {j : Job} (h : recv w = some (j, w1)) :
    w1.wp.quitChans = w.wp.quitChans ∧
    w1.wp.nextWorkerId = w.wp.nextWorkerId ∧
    w1.wp.wg = w.wp.wg ∧
    w1.chans = w.chans ∧
    w1.goroutines = w.goroutines ∧
    w1.wp.jobs.closed = w.wp.jobs.closed ∧
    w1.wp.jobs.cap = w.wp.jobs.cap ∧
    w1.out = w.out ∧
    (w1.caller = .idle ∨ w1.caller = w.caller) := by
  unfold recv at h
  split at h
  · cases h
    simp
  · cases h
    simp
  · cases h
    simp
  · split at h
    · cases h
      simp
    · cases h

theorem stepRecvJob_some {w w2 : World} {k : Nat} (h : stepRecvJob w k = some w2) :
    ∃ g j w1, w.goroutines[k]? = some g ∧ g.running = true ∧ recv w = some (j, w1) ∧
      w2 = { w1 with out := w1.out ++ [Note.processing g.id j.Entity] } := by
  unfold stepRecvJob at h
  split at h
  · rename_i g hg
    split at h
    · rename_i hr
      split at h
      · rename_i j w1 hrecv
        cases h
        exact ⟨g, j, w1, hg, hr, hrecv, rfl⟩
      · cases h
    · cases h
  · cases h

theorem inv_recvJob {w w2 : World} {k : Nat} (h : Inv w) (hs : stepRecvJob w k = some w2) :
    Inv w2 := by
  obtain ⟨g, j, w1, -, -, hrecv, rfl⟩ := stepRecvJob_some hs
  obtain ⟨h1, h2, h3, h4, h5, -⟩ := recv_frame hrecv
  exact h.congr h1 h2 h3 h4 h5

theorem callerInv_recvJob {w w2 : World} {k : Nat} (h : CallerInv w)
    (hs : stepRecvJob w k = some w2) : CallerInv w2 := by
  obtain ⟨g, j, w1, -, -, hrecv, rfl⟩ := stepRecvJob_some hs
  obtain ⟨h1, -, -, -, -, h6, -, -, h9⟩ := recv_frame hrecv
  constructor
  · intro p hp
    simp only at hp ⊢
    rcases h9 with hi | hi
    · rw [hi] at hp
      cases hp
    · rw [hi] at hp
      rw [h1, h6]
      exact h.parkedSend p hp
  · intro hp
    simp only at hp ⊢
    rcases h9 with hi | hi
    · rw [hi] at hp
      cases hp
    · rw [hi] at hp
      rw [h1]
      exact h.parkedWait hp

theorem countP_set_stop : ∀ (l : List Goroutine) (k : Nat) (g : Goroutine),
    l[k]? = some g → g.running = true →
    (l.set k { g with running := false }).countP (fun g => g.running) + 1 =
      l.countP (fun g => g.running)
  | [], k, g, h, _ => by simp at h
  | a :: l, 0, g, h, hr => by
      simp only [List.getElem?_cons_zero, Option.some.injEq] at h
      subst h
      simp [List.countP_cons, hr]
  | a :: l, k + 1, g, h, hr => by
      simp only [List.getElem?_cons_succ] at h
      have ih := countP_set_stop l k g h hr
      simp only [List.set_cons_succ, List.countP_cons]
      omega

theorem mem_set_of_ne {α : Type} : ∀ (l : List α) (k : Nat) (g x a : α),
    l[k]? = some g → a ∈ l → a ≠ g → a ∈ l.set k x
  | [], _, _, _, _, _, h, _ => by simp at h
  | b :: l, 0, g, x, a, hk, h, hne => by
      simp only [List.getElem?_cons_zero, Option.some.injEq] at hk
      subst hk
      rcases List.mem_cons.1 h with he | hm
      · exact absurd he hne
      · simp [hm]
  | b :: l, k + 1, g, x, a, hk, h, hne => by
      simp only [List.getElem?_cons_succ] at hk
      rcases List.mem_cons.1 h with he | hm
      · simp [he]
      · simp only [List.set_cons_succ, List.mem_cons]
        right
        exact mem_set_of_ne l k g x a hk hm hne

theorem stepRecvQuit_some {w w2 : World} {k : Nat} (h : stepRecvQuit w k = some w2) :
    ∃ g, w.goroutines[k]? = some g ∧ g.running = true ∧ w.chans[g.quit]? = some true ∧
      ((w.wp.wg = 0 ∧ w2 = { w with
          out := w.out ++ [Note.exiting g.id],
          goroutines := w.goroutines.set k { g with running := false },
          caller := .crashed }) ∨
       (w.wp.wg ≠ 0 ∧ w2 = { w with
          out := w.out ++ [Note.exiting g.id],
          goroutines := w.goroutines.set k { g with running := false },
          wp := { w.wp with wg := w.wp.wg - 1 } })) := by
  unfold stepRecvQuit at h
  split at h
  · rename_i g hg
    split at h
    · rename_i hr
      simp only [Bool.and_eq_true, beq_iff_eq] at hr
      refine ⟨g, hg, hr.1, hr.2, ?_⟩
      simp only at h
      split at h
      · rename_i h0
        left
        cases h
        exact ⟨by simpa using h0, rfl⟩
      · rename_i h0
        right
        cases h
        exact ⟨by simpa using h0, rfl⟩
    · cases h
  · cases h

theorem stepRecvQuit_ok {w w2 : World} {k : Nat} (h : Inv w) (hs : stepRecvQuit w k = some w2) :
    ∃ g, w.goroutines[k]? = some g ∧ g.running = true ∧ w.chans[g.quit]? = some true ∧
      w.wp.wg ≠ 0 ∧ w2 = { w with
          out := w.out ++ [Note.exiting g.id],
          goroutines := w.goroutines.set k { g with running := false },
          wp := { w.wp with wg := w.wp.wg - 1 } } := by
  obtain ⟨g, hg, hr, hc, hcase⟩ := stepRecvQuit_some hs
  have hpos : w.wp.wg ≠ 0 := by
    rw [h.wgCount]
    have hmem : g ∈ w.goroutines := List.mem_iff_getElem?.2 ⟨k, hg⟩
    have : 0 < w.goroutines.countP (fun g => g.running) :=
      List.countP_pos_iff.2 ⟨g, hmem, hr⟩
    omega
  rcases hcase with ⟨h0, -⟩ | ⟨-, he⟩
  · exact absurd h0 hpos
  · exact ⟨g, hg, hr, hc, hpos, he⟩

theorem inv_recvQuit {w w2 : World} {k : Nat} (h : Inv w) (hs : stepRecvQuit w k = some w2) :
    Inv w2 := by
  obtain ⟨g, hg, hr, hc, hpos, rfl⟩ := stepRecvQuit_ok h hs
  constructor
  · exact h.keys
  · exact h.handles
  · exact h.regOpen
  · exact h.regIds
  · exact h.nextPos
  · have := countP_set_stop w.goroutines k g hg hr
    have h1 := h.wgCount
    show w.wp.wg - 1 =
      (w.goroutines.set k { g with running := false }).countP (fun g => g.running)
    omega
  · intro g1 hg1 hr1
    rcases List.mem_or_eq_of_mem_set hg1 with hm | he
    · exact h.runReg g1 hm hr1
    · subst he
      simp at hr1
  · intro id quit hm
    apply mem_set_of_ne _ _ g _ _ hg (h.regRun id quit hm)
    intro he
    have h1 := h.regOpen id quit hm
    rw [← he] at hc
    simp only at hc
    rw [hc] at h1
    cases h1

theorem callerInv_recvQuit {w w2 : World} {k : Nat} (h : Inv w) (hc : CallerInv w)
    (hs : stepRecvQuit w k = some w2) : CallerInv w2 := by
  obtain ⟨g, -, -, -, -, rfl⟩ := stepRecvQuit_ok h hs
  exact ⟨hc.parkedSend, hc.parkedWait⟩

/-- The invariant of a step: the registry invariant with that of the caller. -/
theorem inv_step {w w1 : World} {e : Event} (h : Inv w ∧ CallerInv w)
    (hs : step w e = some w1) : Inv w1 ∧ CallerInv w1 := by
  obtain ⟨hi, hc⟩ := h
  rcases step_some hs with ⟨hidle, -, rfl⟩ | ⟨hidle, id, -, rfl⟩ | ⟨hidle, job, -, rfl⟩ |
    ⟨hidle, -, rfl⟩ | ⟨hwait, -, -, rfl⟩ | ⟨-, k, -, hk⟩ | ⟨-, k, -, hk⟩
  · refine ⟨inv_AddWorker hi, ?_⟩
    constructor <;> simp [AddWorker, hidle]
  · refine ⟨inv_RemoveWorker hi id, ?_⟩
    unfold RemoveWorker
    split
    · split
      · constructor <;> simp [Outcome.world, hidle]
      · constructor <;> simp [Outcome.world]
    · constructor <;> simp [Outcome.world, hidle]
  · exact ⟨inv_AddJob hi job, callerInv_AddJob hidle job⟩
  · exact ⟨inv_Shutdown hi, callerInv_Shutdown hi⟩
  · exact ⟨inv_closeJobs hi, callerInv_closeJobs w⟩
  · exact ⟨inv_recvJob hi hk, callerInv_recvJob hc hk⟩
  · exact ⟨inv_recvQuit hi hk, callerInv_recvQuit hi hc hk⟩

theorem inv_exec : ∀ (es : List Event) {w w1 : World}, Inv w ∧ CallerInv w →
    exec w es = some w1 → Inv w1 ∧ CallerInv w1
  | [], w, w1, h, he => by
      simp only [exec, Option.some.injEq] at he
      exact he ▸ h
  | e :: es, w, w1, h, he => by
      obtain ⟨w2, h1, h2⟩ := (exec_cons _ _ _ _).1 he
      exact inv_exec es (inv_step h h1) h2

theorem Reachable.inv {w : World} (h : Reachable w) : Inv w ∧ CallerInv w := by
  obtain ⟨size, es, he⟩ := h
  exact inv_exec es ⟨inv_init size, callerInv_init size⟩ he

/-! ## The id counter -/

theorem RemoveWorker_next (w : World) (id : Int) :
    (RemoveWorker w id).world.wp.nextWorkerId = w.wp.nextWorkerId := by
  unfold RemoveWorker
  split
  · split <;> simp [Outcome.world]
  · simp [Outcome.world]

theorem Shutdown_next (w : World) :
    (Shutdown w).world.wp.nextWorkerId = w.wp.nextWorkerId := by
  unfold Shutdown
  split
  · simp [Outcome.world]
  · simp only
    split
    · exact (closeJobs_world_frame _).2.1
    · simp [Outcome.world]

theorem stepRecvQuit_next {w w2 : World} {k : Nat} (h : stepRecvQuit w k = some w2) :
    w2.wp.nextWorkerId = w.wp.nextWorkerId := by
  obtain ⟨g, -, -, -, hcase⟩ := stepRecvQuit_some h
  rcases hcase with ⟨-, rfl⟩ | ⟨-, rfl⟩ <;> rfl

theorem stepRecvJob_next {w w2 : World} {k : Nat} (h : stepRecvJob w k = some w2) :
    w2.wp.nextWorkerId = w.wp.nextWorkerId := by
  obtain ⟨g, j, w1, -, -, hrecv, rfl⟩ := stepRecvJob_some h
  exact (recv_frame hrecv).2.1

theorem step_next {w w1 : World} {e : Event} (hs : step w e = some w1) :
    w1.wp.nextWorkerId = w.wp.nextWorkerId + (if e = Event.addWorker then 1 else 0) := by
  rcases step_some hs with ⟨-, rfl, rfl⟩ | ⟨-, id, rfl, rfl⟩ | ⟨-, job, rfl, rfl⟩ |
    ⟨-, rfl, rfl⟩ | ⟨-, rfl, -, rfl⟩ | ⟨-, k, rfl, hk⟩ | ⟨-, k, rfl, hk⟩
  · simp [AddWorker]
  · simp [RemoveWorker_next]
  · simp [(AddJob_world_frame w job).2.1]
  · simp [Shutdown_next]
  · simp [(closeJobs_world_frame w).2.1]
  · simp [stepRecvJob_next hk]
  · simp [stepRecvQuit_next hk]

theorem step_next_le {w w1 : World} {e : Event} (hs : step w e = some w1) :
    w.wp.nextWorkerId ≤ w1.wp.nextWorkerId := by
  rw [step_next hs]
  split <;> omega

theorem exec_next_le : ∀ (es : List Event) {w w1 : World}, exec w es = some w1 →
    w.wp.nextWorkerId ≤ w1.wp.nextWorkerId
  | [], w, w1, he => by
      simp only [exec, Option.some.injEq] at he
      rw [he]
  | e :: es, w, w1, he => by
      obtain ⟨w2, h1, h2⟩ := (exec_cons _ _ _ _).1 he
      exact le_trans (step_next_le h1) (exec_next_le es h2)

theorem returnedIds_eq : ∀ (es : List Event) (w : World),
    returnedIds w es =
      (List.range (returnedIds w es).length).map (fun (i : Nat) => w.wp.nextWorkerId + (i : Int))
  | [], w => by simp [returnedIds]
  | e :: es, w => by
      simp only [returnedIds]
      cases hs : step w e with
      | none => simp
      | some w1 =>
          have ih := returnedIds_eq es w1
          have hn := step_next hs
          by_cases he : e = Event.addWorker
          · simp only [he, if_true, List.singleton_append, List.length_cons] at hn ⊢
            rw [List.range_succ_eq_map, List.map_cons, List.map_map]
            simp only [AddWorker, Nat.cast_zero, add_zero, List.cons.injEq, true_and]
            conv_lhs => rw [ih]
            apply List.map_congr_left
            intro i _
            simp only [Function.comp, hn, Nat.succ_eq_add_one, Nat.cast_add, Nat.cast_one]
            ring
          · simp only [he, if_false, List.nil_append, add_zero] at hn ⊢
            conv_lhs => rw [ih]
            rw [hn]

theorem returnedIds_length : ∀ (es : List Event) (w w1 : World), exec w es = some w1 →
    (returnedIds w es).length = es.count Event.addWorker
  | [], w, w1, _ => by simp [returnedIds]
  | e :: es, w, w1, he => by
      obtain ⟨w2, h1, h2⟩ := (exec_cons _ _ _ _).1 he
      have ih := returnedIds_length es w2 w1 h2
      simp only [returnedIds, h1, List.length_append, ih, List.count_cons]
      by_cases hc : e = Event.addWorker
      · simp [hc]
        omega
      · simp [hc]

/-! ## The registry along a step -/

theorem RemoveWorker_quitChans_sub {w : World} {id a : Int} {b : Nat}
    (h : (a, b) ∈ (RemoveWorker w id).world.wp.quitChans) : (a, b) ∈ w.wp.quitChans := by
  unfold RemoveWorker at h
  split at h
  · split at h
    · exact (mem_mapDelete.1 h).1
    · exact h
  · exact h

theorem Shutdown_quitChans_sub {w : World} {a : Int} {b : Nat}
    (h : (a, b) ∈ (Shutdown w).world.wp.quitChans) : (a, b) ∈ w.wp.quitChans := by
  unfold Shutdown at h
  split at h
  · exact h
  · simp only at h
    split at h
    · rw [(closeJobs_world_frame _).1] at h
      simp at h
    · simp [Outcome.world] at h

theorem stepRecvJob_quitChans {w w2 : World} {k : Nat} (h : stepRecvJob w k = some w2) :
    w2.wp.quitChans = w.wp.quitChans := by
  obtain ⟨g, j, w1, -, -, hrecv, rfl⟩ := stepRecvJob_some h
  exact (recv_frame hrecv).1

theorem stepRecvQuit_quitChans {w w2 : World} {k : Nat} (h : stepRecvQuit w k = some w2) :
    w2.wp.quitChans = w.wp.quitChans := by
  obtain ⟨g, -, -, -, hcase⟩ := stepRecvQuit_some h
  rcases hcase with ⟨-, rfl⟩ | ⟨-, rfl⟩ <;> rfl

/-- An entry of the registry after a step was there before, or the step is
`AddWorker` and the entry is the one of the id it returns. -/
theorem step_quitChans_sub {w w1 : World} {e : Event} (hs : step w e = some w1)
    {a : Int} {b : Nat} (h : (a, b) ∈ w1.wp.quitChans) :
    (a, b) ∈ w.wp.quitChans ∨ (e = .addWorker ∧ a = w.wp.nextWorkerId) := by
  rcases step_some hs with ⟨-, rfl, rfl⟩ | ⟨-, id, rfl, rfl⟩ | ⟨-, job, rfl, rfl⟩ |
    ⟨-, rfl, rfl⟩ | ⟨-, rfl, -, rfl⟩ | ⟨-, k, rfl, hk⟩ | ⟨-, k, rfl, hk⟩
  · simp only [AddWorker] at h
    rcases mem_mapSet.1 h with h1 | h1
    · exact .inl h1.1
    · exact .inr ⟨rfl, h1.1⟩
  · exact .inl (RemoveWorker_quitChans_sub h)
  · rw [(AddJob_world_frame w job).1] at h
    exact .inl h
  · exact .inl (Shutdown_quitChans_sub h)
  · rw [(closeJobs_world_frame w).1] at h
    exact .inl h
  · rw [stepRecvJob_quitChans hk] at h
    exact .inl h
  · rw [stepRecvQuit_quitChans hk] at h
    exact .inl h

/-- An entry of the registry stays through every step that is not `Shutdown`
and not `RemoveWorker` on its id. -/
theorem step_quitChans_persist {w w1 : World} {e : Event} (hi : Inv w)
    (hs : step w e = some w1) {a : Int} {b : Nat} (h : (a, b) ∈ w.wp.quitChans)
    (h1 : e ≠ .shutdown) (h2 : e ≠ .removeWorker a) : (a, b) ∈ w1.wp.quitChans := by
  rcases step_some hs with ⟨-, rfl, rfl⟩ | ⟨-, id, rfl, rfl⟩ | ⟨-, job, rfl, rfl⟩ |
    ⟨-, rfl, rfl⟩ | ⟨-, rfl, -, rfl⟩ | ⟨-, k, rfl, hk⟩ | ⟨-, k, rfl, hk⟩
  · rw [AddWorker_quitChans hi]
    exact List.mem_append_left _ h
  · have hne : a ≠ id := by
      intro he
      exact h2 (by rw [he])
    by_cases hab : ∀ quit, (id, quit) ∉ w.wp.quitChans
    · rw [RemoveWorker_absent hab]
      exact h
    · push_neg at hab
      obtain ⟨quit, hm⟩ := hab
      rw [RemoveWorker_present hi hm]
      exact mem_mapDelete.2 ⟨h, hne⟩
  · rw [(AddJob_world_frame w job).1]
    exact h
  · exact absurd rfl h1
  · rw [(closeJobs_world_frame w).1]
    exact h
  · rw [stepRecvJob_quitChans hk]
    exact h
  · rw [stepRecvQuit_quitChans hk]
    exact h

theorem exec_quitChans_persist : ∀ (es : List Event) {w w1 : World} {a : Int} {b : Nat},
    Inv w ∧ CallerInv w → exec w es = some w1 → (a, b) ∈ w.wp.quitChans →
    (∀ e ∈ es, e ≠ .shutdown ∧ e ≠ .removeWorker a) → (a, b) ∈ w1.wp.quitChans
  | [], w, w1, a, b, _, he, h, _ => by
      simp only [exec, Option.some.injEq] at he
      exact he ▸ h
  | e :: es, w, w1, a, b, hi, he, h, hes => by
      obtain ⟨w2, h1, h2⟩ := (exec_cons _ _ _ _).1 he
      have he1 := hes e (List.mem_cons_self _ _)
      exact exec_quitChans_persist es (inv_step hi h1) h2
        (step_quitChans_persist hi.1 h1 h he1.1 he1.2)
        (fun x hx => hes x (List.mem_cons_of_mem _ hx))

/-- An id below `nextWorkerId` that is not registered is never registered
again. -/
theorem exec_absent_persist : ∀ (es : List Event) {w w1 : World} {a : Int},
    exec w es = some w1 → a < w.wp.nextWorkerId → (∀ quit, (a, quit) ∉ w.wp.quitChans) →
    ∀ quit, (a, quit) ∉ w1.wp.quitChans
  | [], w, w1, a, he, _, h => by
      simp only [exec, Option.some.injEq] at he
      exact he ▸ h
  | e :: es, w, w1, a, he, hlt, h => by
      obtain ⟨w2, h1, h2⟩ := (exec_cons _ _ _ _).1 he
      refine exec_absent_persist es h2 (lt_of_lt_of_le hlt (step_next_le h1)) ?_
      intro quit hq
      rcases step_quitChans_sub h1 hq with hm | ⟨-, ha⟩
      · exact h quit hm
      · omega

/-! ## Jobs through the queue -/

theorem stopped_of_wg {w : World} (hi : Inv w) (h0 : w.wp.wg = 0) : Stopped w := by
  intro g hg
  by_contra hr
  have hr1 : g.running = true := by simpa using hr
  have : 0 < w.goroutines.countP (fun g => g.running) := List.countP_pos_iff.2 ⟨g, hg, hr1⟩
  have := hi.wgCount
  omega

theorem map_id_set : ∀ (l : List Goroutine) (k : Nat) (g : Goroutine), l[k]? = some g →
    (l.set k { g with running := false }).map (fun g => g.id) = l.map (fun g => g.id)
  | [], _, _, h => by simp at h
  | a :: l, 0, g, h => by
      simp only [List.getElem?_cons_zero, Option.some.injEq] at h
      subst h
      simp
  | a :: l, k + 1, g, h => by
      simp only [List.getElem?_cons_succ] at h
      simp [map_id_set l k g h]

theorem closeJobs_open {w : World} (h : w.wp.jobs.closed = false) :
    closeJobs w = .returned () { w with
      wp := { w.wp with jobs := { w.wp.jobs with closed := true } }, caller := .idle } := by
  simp [closeJobs, h]

theorem closeJobs_closed {w : World} (h : w.wp.jobs.closed = true) :
    closeJobs w = .panicked { w with caller := .crashed } := by
  simp [closeJobs, h]

theorem Shutdown_done {w : World} (hreg : w.wp.quitChans = []) (hwg : w.wp.wg = 0)
    (hcl : w.wp.jobs.closed = true) : Shutdown w = .panicked { w with caller := .crashed } := by
  obtain ⟨⟨n, jobs, qc, wg⟩, chans, gs, out, caller⟩ := w
  simp only at hreg hwg hcl
  subst hreg hwg
  simp [Shutdown, fireAll, closeJobs, hcl]

theorem waiting_step {w w1 : World} {e : Event} (hp : Waiting w) (hs : step w e = some w1) :
    isCall e = false ∧ (Waiting w1 ∨ Done w1) ∧ waitMeasure w1 + 1 = waitMeasure w ∧
      spawnedIds w1 = spawnedIds w := by
  have hc := hp.caller
  rcases step_some hs with ⟨hidle, -, -⟩ | ⟨hidle, -, -, -⟩ | ⟨hidle, -, -, -⟩ |
    ⟨hidle, -, -⟩ | ⟨-, rfl, h0, rfl⟩ | ⟨-, k, rfl, hk⟩ | ⟨-, k, rfl, hk⟩
  · rw [hc] at hidle; cases hidle
  · rw [hc] at hidle; cases hidle
  · rw [hc] at hidle; cases hidle
  · rw [hc] at hidle; cases hidle
  · have hi1 := inv_closeJobs hp.inv
    rw [closeJobs_open hp.isOpen] at hi1 ⊢
    simp only [Outcome.world] at hi1 ⊢
    refine ⟨rfl, .inr ⟨hi1, hp.reg, rfl, rfl, h0⟩, ?_, rfl⟩
    simp [waitMeasure, hc]
  · have hi1 := inv_recvJob hp.inv hk
    obtain ⟨g, j, w0, -, -, hrecv, rfl⟩ := stepRecvJob_some hk
    unfold recv at hrecv
    cases hb : w.wp.jobs.buf with
    | nil => simp [hb, hc, hp.isOpen] at hrecv
    | cons a rest =>
        simp only [hb, hc] at hrecv
        cases hrecv
        refine ⟨rfl, .inl ⟨hi1, hp.reg, rfl, hp.isOpen⟩, ?_, rfl⟩
        simp [waitMeasure, hc, hb]
        omega
  · have hi1 := inv_recvQuit hp.inv hk
    obtain ⟨g, hg, -, -, hpos, rfl⟩ := stepRecvQuit_ok hp.inv hk
    refine ⟨rfl, .inl ⟨hi1, hp.reg, hc, hp.isOpen⟩, ?_, map_id_set _ _ _ hg⟩
    simp [waitMeasure, hc]
    omega

theorem done_step {w w1 : World} {e : Event} (hp : Done w) (hs : step w e = some w1)
    (hne : e ≠ .addWorker) :
    isCall e = true ∧ (e ≠ .shutdown → Done w1) ∧
      (e = .shutdown → Dead w1 ∧ w1 = { w with caller := .crashed }) := by
  have hc := hp.caller
  rcases step_some hs with ⟨-, rfl, -⟩ | ⟨-, id, rfl, rfl⟩ | ⟨-, job, rfl, rfl⟩ |
    ⟨-, rfl, rfl⟩ | ⟨hwait, -, -, -⟩ | ⟨-, k, rfl, hk⟩ | ⟨-, k, rfl, hk⟩
  · exact absurd rfl hne
  · have hab : ∀ quit, (id, quit) ∉ w.wp.quitChans := by simp [hp.reg]
    rw [RemoveWorker_absent hab]
    exact ⟨rfl, fun _ => hp, fun h => by cases h⟩
  · have hi1 := inv_AddJob hp.inv job
    have he : AddJob w job =
        .returned () { w with out := w.out ++ [Note.noWorkers job.Entity] } := by
      simp [AddJob, hp.reg]
    rw [he] at hi1 ⊢
    exact ⟨rfl, fun _ => ⟨hi1, hp.reg, hc, hp.closed, hp.wg⟩, fun h => by cases h⟩
  · rw [Shutdown_done hp.reg hp.wg hp.closed]
    refine ⟨rfl, fun h => absurd rfl h, fun _ => ⟨⟨?_, hp.reg, rfl, hp.closed, hp.wg⟩, rfl⟩⟩
    exact hp.inv.congr rfl rfl rfl rfl rfl
  · rw [hc] at hwait; cases hwait
  · obtain ⟨g, j, w0, hg, hr, -, -⟩ := stepRecvJob_some hk
    have hst := stopped_of_wg hp.inv hp.wg g (List.mem_iff_getElem?.2 ⟨k, hg⟩)
    rw [hr] at hst
    cases hst
  · obtain ⟨g, -, -, -, hpos, -⟩ := stepRecvQuit_ok hp.inv hk
    exact absurd hp.wg hpos

theorem dead_step {w : World} (hp : Dead w) (e : Event) : step w e = none := by
  simp [step, hp.caller]

theorem shutdown_phase {w : World} (hi : Inv w) (ho : w.wp.jobs.closed = false) :
    (Waiting (Shutdown w).world ∨ Done (Shutdown w).world) ∧
      spawnedIds (Shutdown w).world = spawnedIds w ∧
      waitMeasure (Shutdown w).world ≤ w.wp.jobs.buf.length + w.wp.wg + 1 := by
  have hi1 := inv_Shutdown hi
  obtain ⟨w0, ⟨f1, f2, f3, f4, f5, f6⟩, he⟩ := Shutdown_eq hi
  rw [he] at hi1 ⊢
  have ho0 : w0.wp.jobs.closed = false := by rw [f1]; exact ho
  by_cases h0 : w0.wp.wg = 0
  · simp only [h0, beq_self_eq_true, if_true] at hi1 ⊢
    rw [closeJobs_open ho0] at hi1 ⊢
    simp only [Outcome.world] at hi1 ⊢
    refine ⟨.inr ⟨hi1, by simp [f1], rfl, rfl, h0⟩, ?_, ?_⟩
    · simp [spawnedIds, f2]
    · simp [waitMeasure, f1]
  · have hb : (w0.wp.wg == 0) = false := by simpa using h0
    simp only [hb, Bool.false_eq_true, if_false] at hi1 ⊢
    simp only [Outcome.world] at hi1 ⊢
    refine ⟨.inl ⟨hi1, by simp [f1], rfl, ho0⟩, ?_, ?_⟩
    · simp [spawnedIds, f2]
    · simp [waitMeasure, f1]

theorem nocall_exec : ∀ (es : List Event) {w w2 : World}, Waiting w ∨ Done w →
    (∀ e ∈ es, isCall e = false) → exec w es = some w2 →
    (Waiting w2 ∨ Done w2) ∧ es.length + waitMeasure w2 = waitMeasure w ∧
      spawnedIds w2 = spawnedIds w
  | [], w, w2, hp, _, he => by
      simp only [exec, Option.some.injEq] at he
      subst he
      exact ⟨hp, by simp, rfl⟩
  | e :: es, w, w2, hp, hes, he => by
      obtain ⟨w1, h1, h2⟩ := (exec_cons _ _ _ _).1 he
      have he1 := hes e (List.mem_cons_self _ _)
      rcases hp with hp | hp
      · obtain ⟨-, p1, m1, s1⟩ := waiting_step hp h1
        obtain ⟨p2, m2, s2⟩ := nocall_exec es p1 (fun x hx => hes x (List.mem_cons_of_mem _ hx)) h2
        refine ⟨p2, ?_, s2.trans s1⟩
        simp only [List.length_cons]
        omega
      · have hne : e ≠ .addWorker := by
          intro h
          rw [h] at he1
          cases he1
        have := (done_step hp h1 hne).1
        rw [he1] at this
        cases this

theorem post_exec : ∀ (es : List Event) {w w2 : World}, Waiting w ∨ Done w ∨ Dead w →
    (∀ e ∈ es, e ≠ .addWorker) → exec w es = some w2 →
    (Waiting w2 ∨ Done w2 ∨ Dead w2) ∧
      ((∀ e ∈ es, e ≠ .shutdown) → (Waiting w ∨ Done w) → (Waiting w2 ∨ Done w2))
  | [], w, w2, hp, _, he => by
      simp only [exec, Option.some.injEq] at he
      subst he
      exact ⟨hp, fun _ h => h⟩
  | e :: es, w, w2, hp, hes, he => by
      obtain ⟨w1, h1, h2⟩ := (exec_cons _ _ _ _).1 he
      have he1 := hes e (List.mem_cons_self _ _)
      have hes1 : ∀ x ∈ es, x ≠ .addWorker := fun x hx => hes x (List.mem_cons_of_mem _ hx)
      rcases hp with hp | hp | hp
      · obtain ⟨-, p1, -, -⟩ := waiting_step hp h1
        have p1a : Waiting w1 ∨ Done w1 ∨ Dead w1 := by
          rcases p1 with p | p
          · exact .inl p
          · exact .inr (.inl p)
        obtain ⟨r1, r2⟩ := post_exec es p1a hes1 h2
        exact ⟨r1, fun hns _ => r2 (fun x hx => hns x (List.mem_cons_of_mem _ hx)) p1⟩
      · obtain ⟨-, d1, d2⟩ := done_step hp h1 he1
        by_cases hsd : e = .shutdown
        · obtain ⟨r1, -⟩ := post_exec es (.inr (.inr (d2 hsd).1)) hes1 h2
          exact ⟨r1, fun hns _ => absurd hsd (hns e (List.mem_cons_self _ _))⟩
        · obtain ⟨r1, r2⟩ := post_exec es (.inr (.inl (d1 hsd))) hes1 h2
          exact ⟨r1, fun hns _ => r2 (fun x hx => hns x (List.mem_cons_of_mem _ hx))
            (.inr (d1 hsd))⟩
      · rw [dead_step hp e] at h1
        cases h1

theorem waiting_progress {w : World} (hp : Waiting w) :
    ∃ e w1, isCall e = false ∧ step w e = some w1 := by
  by_cases h0 : w.wp.wg = 0
  · exact ⟨.wake, (closeJobs w).world, rfl, by simp [step, hp.caller, h0]⟩
  · have hpos : 0 < w.goroutines.countP (fun g => g.running) := by
      have := hp.inv.wgCount
      omega
    obtain ⟨g, hg, hr⟩ := List.countP_pos_iff.1 hpos
    obtain ⟨k, hk⟩ := List.mem_iff_getElem?.1 hg
    have hcl : w.chans[g.quit]? = some true := by
      rcases hp.inv.runReg g hg hr with h | h
      · exact h
      · rw [hp.reg] at h
        cases h
    have hb : (w.wp.wg == 0) = false := by simpa using h0
    refine ⟨.recvQuit k, ?_⟩
    simp [isCall, step, hp.caller, stepRecvQuit, hk, hr, hcl, hb, h0]

theorem waiting_returns : ∀ (n : Nat) (w : World), Waiting w → waitMeasure w = n →
    ∃ es w2, (∀ e ∈ es, isCall e = false) ∧ exec w es = some w2 ∧ Done w2
  | 0, w, hp, h0 => by
      simp [waitMeasure, hp.caller] at h0
  | n + 1, w, hp, hn => by
      obtain ⟨e, w1, hcall, hs⟩ := waiting_progress hp
      obtain ⟨-, p1, m1, -⟩ := waiting_step hp hs
      rcases p1 with p | p
      · obtain ⟨es, w2, h1, h2, h3⟩ := waiting_returns n w1 p (by omega)
        refine ⟨e :: es, w2, ?_, ?_, h3⟩
        · intro x hx
          rcases List.mem_cons.1 hx with hx | hx
          · rw [hx]; exact hcall
          · exact h1 x hx
        · rw [exec_cons]
          exact ⟨w1, hs, h2⟩
      · exact ⟨[e], w1, by simp [hcall], by simp [exec, hs], p⟩

theorem AddJob_caller {w : World} (hc : w.caller = .idle) (job : Job) :
    (AddJob w job).world.caller ≠ .waiting := by
  unfold AddJob send
  simp only
  split
  · simp [Outcome.world, hc]
  · split
    · simp [Outcome.world]
    · split <;> simp [Outcome.world, hc]

theorem RemoveWorker_jobs {w : World} (hi : Inv w) (id : Int) :
    (RemoveWorker w id).world.wp.jobs = w.wp.jobs ∧
      (RemoveWorker w id).world.caller = w.caller ∧
      (RemoveWorker w id).world.goroutines = w.goroutines := by
  by_cases hab : ∀ quit, (id, quit) ∉ w.wp.quitChans
  · rw [RemoveWorker_absent hab]
    exact ⟨rfl, rfl, rfl⟩
  · push_neg at hab
    obtain ⟨quit, hm⟩ := hab
    rw [RemoveWorker_present hi hm]
    exact ⟨rfl, rfl, rfl⟩

theorem open_step {w w1 : World} {e : Event} (hp : OpenPhase w) (hs : step w e = some w1)
    (hne : e ≠ .shutdown) : OpenPhase w1 := by
  obtain ⟨hi1, hc1⟩ := inv_step ⟨hp.inv, hp.cinv⟩ hs
  refine ⟨hi1, hc1, ?_, ?_⟩ <;>
  rcases step_some hs with ⟨hidle, rfl, rfl⟩ | ⟨hidle, id, rfl, rfl⟩ | ⟨hidle, job, rfl, rfl⟩ |
    ⟨-, rfl, -⟩ | ⟨hwait, -, -, -⟩ | ⟨-, k, rfl, hk⟩ | ⟨-, k, rfl, hk⟩
  · exact hp.isOpen
  · rw [(RemoveWorker_jobs hp.inv id).1]
    exact hp.isOpen
  · rw [(AddJob_world_frame w job).2.2.2.2.2]
    exact hp.isOpen
  · exact absurd rfl hne
  · exact absurd hwait hp.caller
  · obtain ⟨g, j, w0, -, -, hrecv, rfl⟩ := stepRecvJob_some hk
    show w0.wp.jobs.closed = false
    rw [(recv_frame hrecv).2.2.2.2.2.1]
    exact hp.isOpen
  · obtain ⟨g, -, -, -, -, rfl⟩ := stepRecvQuit_ok hp.inv hk
    exact hp.isOpen
  · show w.caller ≠ .waiting
    exact hp.caller
  · rw [(RemoveWorker_jobs hp.inv id).2.1]
    exact hp.caller
  · exact AddJob_caller hidle job
  · exact absurd rfl hne
  · exact absurd hwait hp.caller
  · obtain ⟨g, j, w0, -, -, hrecv, rfl⟩ := stepRecvJob_some hk
    show w0.caller ≠ .waiting
    rcases (recv_frame hrecv).2.2.2.2.2.2.2.2 with h | h
    · rw [h]
      simp
    · rw [h]
      exact hp.caller
  · obtain ⟨g, -, -, -, -, rfl⟩ := stepRecvQuit_ok hp.inv hk
    exact hp.caller

theorem open_init (size : Nat) : OpenPhase (NewWorkerPool size) :=
  ⟨inv_init size, callerInv_init size, rfl, by simp [NewWorkerPool]⟩

theorem open_exec : ∀ (es : List Event) {w w1 : World}, OpenPhase w →
    (∀ e ∈ es, e ≠ .shutdown) → exec w es = some w1 → OpenPhase w1
  | [], w, w1, hp, _, he => by
      simp only [exec, Option.some.injEq] at he
      exact he ▸ hp
  | e :: es, w, w1, hp, hes, he => by
      obtain ⟨w2, h1, h2⟩ := (exec_cons _ _ _ _).1 he
      exact open_exec es (open_step hp h1 (hes e (List.mem_cons_self _ _)))
        (fun x hx => hes x (List.mem_cons_of_mem _ hx)) h2

theorem noAddAfterShutdown_cons {e : Event} {es : List Event} (hne : e ≠ .shutdown) :
    noAddAfterShutdown (e :: es) = noAddAfterShutdown es := by
  cases e <;> first | rfl | exact absurd rfl hne

theorem open_or_post_exec : ∀ (es : List Event) {w w1 : World}, OpenPhase w →
    noAddAfterShutdown es = true → exec w es = some w1 →
    OpenPhase w1 ∨ Waiting w1 ∨ Done w1 ∨ Dead w1
  | [], w, w1, hp, _, he => by
      simp only [exec, Option.some.injEq] at he
      exact he ▸ .inl hp
  | e :: es, w, w1, hp, hes, he => by
      obtain ⟨w2, h1, h2⟩ := (exec_cons _ _ _ _).1 he
      by_cases hsd : e = .shutdown
      · subst hsd
        right
        have hw2 : w2 = (Shutdown w).world := by
          rcases step_some h1 with ⟨-, h, -⟩ | ⟨-, _, h, -⟩ | ⟨-, _, h, -⟩ |
            ⟨-, -, h⟩ | ⟨-, h, -, -⟩ | ⟨-, _, h, -⟩ | ⟨-, _, h, -⟩ <;>
            first | exact h | cases h
        have hph : Waiting w2 ∨ Done w2 ∨ Dead w2 := by
          rw [hw2]
          rcases (shutdown_phase hp.inv hp.isOpen).1 with p | p
          · exact .inl p
          · exact .inr (.inl p)
        have hno : ∀ x ∈ es, x ≠ Event.addWorker := by
          simp only [noAddAfterShutdown, List.all_eq_true, bne_iff_ne] at hes
          exact hes
        exact (post_exec es hph hno h2).1
      · rw [noAddAfterShutdown_cons hsd] at hes
        exact open_or_post_exec es (open_step hp h1 hsd) hes h2

theorem close_step {w w1 : World} {e : Event} (hi : Inv w) (hs : step w e = some w1)
    (ho : w.wp.jobs.closed = false) (hc : w1.wp.jobs.closed = true) :
    (e = .shutdown ∨ e = .wake) ∧ Stopped w ∧ Stopped w1 := by
  rcases step_some hs with ⟨hidle, rfl, rfl⟩ | ⟨hidle, id, rfl, rfl⟩ | ⟨hidle, job, rfl, rfl⟩ |
    ⟨-, rfl, rfl⟩ | ⟨hwait, rfl, h0, rfl⟩ | ⟨-, k, rfl, hk⟩ | ⟨-, k, rfl, hk⟩
  · have : (AddWorker w).2.wp.jobs.closed = w.wp.jobs.closed := rfl
    rw [this, ho] at hc
    cases hc
  · rw [(RemoveWorker_jobs hi id).1, ho] at hc
    cases hc
  · rw [(AddJob_world_frame w job).2.2.2.2.2, ho] at hc
    cases hc
  · obtain ⟨w0, ⟨f1, f2, f3, f4, f5, f6⟩, he⟩ := Shutdown_eq hi
    have ho0 : w0.wp.jobs.closed = false := by rw [f1]; exact ho
    rw [he] at hc ⊢
    by_cases h0 : w0.wp.wg = 0
    · have hw : w.wp.wg = 0 := by rw [f1] at h0; exact h0
      have hst := stopped_of_wg hi hw
      refine ⟨.inl rfl, hst, ?_⟩
      simp only [h0, beq_self_eq_true, if_true]
      intro g hg
      rw [(closeJobs_world_frame w0).2.2.2.2.1, f2] at hg
      exact hst g hg
    · have hb : (w0.wp.wg == 0) = false := by simpa using h0
      simp only [hb, Bool.false_eq_true, if_false, Outcome.world] at hc
      rw [ho0] at hc
      cases hc
  · have hst := stopped_of_wg hi h0
    refine ⟨.inr rfl, hst, ?_⟩
    intro g hg
    rw [(closeJobs_world_frame w).2.2.2.2.1] at hg
    exact hst g hg
  · obtain ⟨g, j, w0, -, -, hrecv, rfl⟩ := stepRecvJob_some hk
    have : w0.wp.jobs.closed = true := hc
    rw [(recv_frame hrecv).2.2.2.2.2.1, ho] at this
    cases this
  · obtain ⟨g, -, -, -, -, rfl⟩ := stepRecvQuit_ok hi hk
    have : w.wp.jobs.closed = true := hc
    rw [ho] at this
    cases this

/-! ## The command loop -/

theorem dropSpaces_suffix (len : List UInt8 → Nat) : ∀ (s : List UInt8) (skip : Nat),
    ∃ pre, s = pre ++ dropSpaces len skip s
  | [], skip => ⟨[], by cases skip <;> simp [dropSpaces]⟩
  | b :: rest, skip + 1 => by
      obtain ⟨pre, h⟩ := dropSpaces_suffix len rest skip
      refine ⟨b :: pre, ?_⟩
      simp only [dropSpaces, List.cons_append]
      rw [← h]
  | b :: rest, 0 => by
      simp only [dropSpaces]
      cases len (b :: rest) with
      | zero => exact ⟨[], rfl⟩
      | succ n =>
          obtain ⟨pre, h⟩ := dropSpaces_suffix len rest n
          refine ⟨b :: pre, ?_⟩
          simp only [List.cons_append]
          rw [← h]

theorem dropSpaces_front (len : List UInt8 → Nat) : ∀ (s : List UInt8) (skip : Nat),
    dropSpaces len skip s = [] ∨ len (dropSpaces len skip s) = 0
  | [], skip => .inl (by cases skip <;> simp [dropSpaces])
  | b :: rest, skip + 1 => by
      simp only [dropSpaces]
      exact dropSpaces_front len rest skip
  | b :: rest, 0 => by
      simp only [dropSpaces]
      cases h : len (b :: rest) with
      | zero => exact .inr h
      | succ n => exact dropSpaces_front len rest n

theorem startsWith_append : ∀ (enc t x : List UInt8), startsWith enc t = true →
    startsWith enc (t ++ x) = true
  | [], _, _, _ => by simp [startsWith]
  | a :: enc, [], x, h => by simp [startsWith] at h
  | a :: enc, b :: t, x, h => by
      simp only [startsWith, Bool.and_eq_true, List.cons_append] at h ⊢
      exact ⟨h.1, startsWith_append enc t x h.2⟩

theorem spaceLen_eq_zero (s : List UInt8) :
    spaceLen s = 0 ↔ ∀ enc ∈ spaceEncodings, startsWith enc s = false := by
  unfold spaceLen
  cases h : spaceEncodings.find? (fun enc => startsWith enc s) with
  | none =>
      simp only [true_iff]
      intro enc henc
      have := List.find?_eq_none.1 h enc henc
      simpa using this
  | some enc =>
      have hm := List.mem_of_find?_eq_some h
      have hs := List.find?_some h
      have hl : ∀ e ∈ spaceEncodings, e.length ≠ 0 := by decide
      constructor
      · intro h0
        exact absurd h0 (hl enc hm)
      · intro hall
        rw [hall enc hm] at hs
        cases hs

theorem spaceLen_front {t x : List UInt8} (h : spaceLen (t ++ x) = 0) : spaceLen t = 0 := by
  rw [spaceLen_eq_zero] at h ⊢
  intro enc henc
  have h1 := h enc henc
  cases h2 : startsWith enc t with
  | false => rfl
  | true =>
      rw [startsWith_append enc t x h2] at h1
      cases h1

theorem fieldsAux_ne_nil : ∀ (s : List UInt8) (skip : Nat) (cur : List UInt8),
    cur ≠ [] → fieldsAux skip s cur ≠ []
  | [], skip, cur, h => by
      cases cur with
      | nil => exact absurd rfl h
      | cons a l => cases skip <;> simp [fieldsAux]
  | b :: rest, skip + 1, cur, h => by
      simp only [fieldsAux]
      exact fieldsAux_ne_nil rest skip cur h
  | b :: rest, 0, cur, h => by
      simp only [fieldsAux]
      cases spaceLen (b :: rest) with
      | zero => exact fieldsAux_ne_nil rest 0 (b :: cur) (by simp)
      | succ n =>
          cases cur with
          | nil => exact absurd rfl h
          | cons a l => simp

theorem Fields_TrimSpace_ne_nil (text : List UInt8) (h : TrimSpace text ≠ []) :
    Fields (TrimSpace text) ≠ [] := by
  obtain ⟨pre, hpre⟩ := dropSpaces_suffix spaceLenBack (dropSpaces spaceLen 0 text).reverse 0
  have hu : dropSpaces spaceLen 0 text = TrimSpace text ++ pre.reverse := by
    have := congrArg List.reverse hpre
    simpa [TrimSpace] using this
  have hlen : spaceLen (TrimSpace text) = 0 := by
    rcases dropSpaces_front spaceLen text 0 with h0 | h0
    · rw [h0] at hu
      have : TrimSpace text = [] := by
        cases ht : TrimSpace text with
        | nil => rfl
        | cons a l => rw [ht] at hu; cases hu
      exact absurd this h
    · rw [hu] at h0
      exact spaceLen_front h0
  cases ht : TrimSpace text with
  | nil => exact absurd ht h
  | cons b rest =>
      rw [ht] at hlen
      simp only [Fields, fieldsAux, hlen]
      exact fieldsAux_ne_nil rest 0 [b] (by simp)

theorem dispatch_blank {text : List UInt8} (h : TrimSpace text = []) :
    dispatch text = .skip := by
  simp [dispatch, h]

theorem dispatch_not_blank {text : List UInt8} (h : TrimSpace text ≠ []) :
    dispatch text = dispatchParts (TrimSpace text) (Fields (TrimSpace text)) := by
  simp [dispatch, h]

theorem turn_long {raw : List UInt8} (h : MaxScanTokenSize ≤ raw.length) :
    turn raw = .endLoop := by
  simp [turn, scanText, h]

theorem turn_short {raw : List UInt8} (h : raw.length < MaxScanTokenSize) :
    turn raw = dispatch (dropCR raw) := by
  have : ¬ MaxScanTokenSize ≤ raw.length := by omega
  simp [turn, scanText, this]

theorem dispatch_ne_endLoop (text : List UInt8) : dispatch text ≠ .endLoop := by
  unfold dispatch dispatchParts
  simp only
  split
  · simp
  · split
    · simp
    · split
      · simp
      · split
        · split
          · simp
          · split
            · split <;> simp
            · simp
        · split <;> simp

/-! ## A shutdown on a closed queue -/

theorem recv_waiting {w w1 : World} {j : Job} (h : recv w = some (j, w1))
    (hc : w.caller = .waiting) : w1.caller = .waiting := by
  unfold recv at h
  cases hb : w.wp.jobs.buf with
  | nil =>
      simp only [hb, hc] at h
      split at h
      · cases h
        exact hc
      · cases h
  | cons a rest =>
      simp only [hb, hc] at h
      cases h
      rfl

/-- Once a `Shutdown` has begun (the caller is in `Wait`, or the queue is
closed), it stays so. -/
theorem begun_step {w w1 : World} {e : Event} (hi : Inv w)
    (hb : w.caller = .waiting ∨ w.wp.jobs.closed = true) (hs : step w e = some w1) :
    w1.caller = .waiting ∨ w1.wp.jobs.closed = true := by
  rcases step_some hs with ⟨hidle, rfl, rfl⟩ | ⟨hidle, id, rfl, rfl⟩ | ⟨hidle, job, rfl, rfl⟩ |
    ⟨hidle, rfl, rfl⟩ | ⟨hwait, rfl, h0, rfl⟩ | ⟨-, k, rfl, hk⟩ | ⟨-, k, rfl, hk⟩
  · rcases hb with h | h
    · rw [hidle] at h; cases h
    · exact .inr h
  · rcases hb with h | h
    · rw [hidle] at h; cases h
    · right
      rw [(RemoveWorker_jobs hi id).1]
      exact h
  · rcases hb with h | h
    · rw [hidle] at h; cases h
    · right
      rw [(AddJob_world_frame w job).2.2.2.2.2]
      exact h
  · rcases hb with h | h
    · rw [hidle] at h; cases h
    · obtain ⟨w0, ⟨f1, -⟩, he⟩ := Shutdown_eq hi
      have hc0 : w0.wp.jobs.closed = true := by rw [f1]; exact h
      rw [he]
      split
      · right
        rw [closeJobs_closed hc0]
        exact hc0
      · exact .inl rfl
  · right
    cases hcl : w.wp.jobs.closed with
    | false =>
        rw [closeJobs_open hcl]
        rfl
    | true =>
        rw [closeJobs_closed hcl]
        exact hcl
  · obtain ⟨g, j, w0, -, -, hrecv, rfl⟩ := stepRecvJob_some hk
    rcases hb with h | h
    · left
      show w0.caller = .waiting
      exact recv_waiting hrecv h
    · right
      show w0.wp.jobs.closed = true
      rw [(recv_frame hrecv).2.2.2.2.2.1]
      exact h
  · obtain ⟨g, -, -, -, -, rfl⟩ := stepRecvQuit_ok hi hk
    exact hb

theorem begun_exec : ∀ (es : List Event) {w w1 : World}, Inv w ∧ CallerInv w →
    (w.caller = .waiting ∨ w.wp.jobs.closed = true) → exec w es = some w1 →
    w1.caller = .waiting ∨ w1.wp.jobs.closed = true
  | [], w, w1, _, hb, he => by
      simp only [exec, Option.some.injEq] at he
      exact he ▸ hb
  | e :: es, w, w1, hi, hb, he => by
      obtain ⟨w2, h1, h2⟩ := (exec_cons _ _ _ _).1 he
      exact begun_exec es (inv_step hi h1) (begun_step hi.1 hb h1) h2

theorem doomed_Shutdown {w : World} (hi : Inv w) (hc : w.wp.jobs.closed = true) :
    Doomed (Shutdown w).world := by
  have hi1 := inv_Shutdown hi
  obtain ⟨w0, ⟨f1, -⟩, he⟩ := Shutdown_eq hi
  have hc0 : w0.wp.jobs.closed = true := by rw [f1]; exact hc
  rw [he] at hi1 ⊢
  split
  · rename_i h0
    simp only [h0, if_true] at hi1
    rw [closeJobs_closed hc0] at hi1 ⊢
    exact ⟨hi1, hc0, .inr rfl⟩
  · rename_i h0
    simp only [h0, if_false] at hi1
    exact ⟨hi1, hc0, .inl rfl⟩

theorem doomed_step {w w1 : World} {e : Event} (hp : Doomed w) (hs : step w e = some w1) :
    Doomed w1 := by
  rcases hp.caller with hc | hc
  · rcases step_some hs with ⟨hidle, -, -⟩ | ⟨hidle, -, -, -⟩ | ⟨hidle, -, -, -⟩ |
      ⟨hidle, -, -⟩ | ⟨-, rfl, h0, rfl⟩ | ⟨-, k, rfl, hk⟩ | ⟨-, k, rfl, hk⟩
    · rw [hc] at hidle; cases hidle
    · rw [hc] at hidle; cases hidle
    · rw [hc] at hidle; cases hidle
    · rw [hc] at hidle; cases hidle
    · have hi1 := inv_closeJobs hp.inv
      rw [closeJobs_closed hp.closed] at hi1 ⊢
      exact ⟨hi1, hp.closed, .inr rfl⟩
    · have hi1 := inv_recvJob hp.inv hk
      obtain ⟨g, j, w0, -, -, hrecv, rfl⟩ := stepRecvJob_some hk
      have hw0 : w0.caller = .waiting := recv_waiting hrecv hc
      refine ⟨hi1, ?_, .inl hw0⟩
      show w0.wp.jobs.closed = true
      rw [(recv_frame hrecv).2.2.2.2.2.1]
      exact hp.closed
    · have hi1 := inv_recvQuit hp.inv hk
      obtain ⟨g, -, -, -, -, rfl⟩ := stepRecvQuit_ok hp.inv hk
      exact ⟨hi1, hp.closed, .inl hc⟩
  · simp [step, hc] at hs

theorem doomed_exec : ∀ (es : List Event) {w w1 : World}, Doomed w →
    exec w es = some w1 → Doomed w1
  | [], w, w1, hp, he => by
      simp only [exec, Option.some.injEq] at he
      exact he ▸ hp
  | e :: es, w, w1, hp, he => by
      obtain ⟨w2, h1, h2⟩ := (exec_cons _ _ _ _).1 he
      exact doomed_exec es (doomed_step hp h1) h2

/-- A `Shutdown` blocked in `Wait` on a closed queue can go on to its panic:
the workers left take their quit branch, `Wait` returns and `close`
panics. -/
theorem doomed_crashes : ∀ (n : Nat) (w : World), Inv w → w.wp.quitChans = [] →
    w.caller = .waiting → w.wp.jobs.closed = true → w.wp.wg = n →
    ∃ es w2, exec w es = some w2 ∧ w2.caller = .crashed
  | 0, w, _, _, hc, hcl, h0 => by
      refine ⟨[.wake], { w with caller := .crashed }, ?_, rfl⟩
      simp [exec, step, hc, h0, closeJobs_closed hcl, Outcome.world]
  | n + 1, w, hi, hreg, hc, hcl, hn => by
      have hpos : 0 < w.goroutines.countP (fun g => g.running) := by
        have := hi.wgCount
        omega
      obtain ⟨g, hg, hr⟩ := List.countP_pos_iff.1 hpos
      obtain ⟨k, hk⟩ := List.mem_iff_getElem?.1 hg
      have hq : w.chans[g.quit]? = some true := by
        rcases hi.runReg g hg hr with h | h
        · exact h
        · rw [hreg] at h
          cases h
      have hb : (w.wp.wg == 0) = false := by simp [hn]
      obtain ⟨w1, hs⟩ : ∃ w1, step w (.recvQuit k) = some w1 := by
        simp [step, hc, stepRecvQuit, hk, hr, hq, hn]
      have hk1 : stepRecvQuit w k = some w1 := by
        simpa [step, hc] using hs
      have hi1 := inv_recvQuit hi hk1
      obtain ⟨g1, -, -, -, -, rfl⟩ := stepRecvQuit_ok hi hk1
      obtain ⟨es, w2, h1, h2⟩ := doomed_crashes n _ hi1 hreg hc hcl (by
        show w.wp.wg - 1 = n
        omega)
      exact ⟨.recvQuit k :: es, w2, (exec_cons _ _ _ _).2 ⟨_, hs, h1⟩, h2⟩

theorem Shutdown_closed_crashes {w : World} (hi : Inv w) (hcl : w.wp.jobs.closed = true) :
    ∃ es w2, exec (Shutdown w).world es = some w2 ∧ w2.caller = .crashed := by
  have hi1 := inv_Shutdown hi
  obtain ⟨w0, ⟨f1, -⟩, he⟩ := Shutdown_eq hi
  have hc0 : w0.wp.jobs.closed = true := by rw [f1]; exact hcl
  rw [he] at hi1 ⊢
  by_cases h0 : w0.wp.wg = 0
  · simp only [h0, beq_self_eq_true, if_true]
    rw [closeJobs_closed hc0]
    exact ⟨[], _, rfl, rfl⟩
  · have hb : (w0.wp.wg == 0) = false := by simpa using h0
    simp only [hb, Bool.false_eq_true, if_false] at hi1 ⊢
    exact doomed_crashes _ _ hi1 (by simp [Outcome.world, f1]) rfl hc0 rfl

/-! ## Claims on ids and removal -/

/-- C1: along every execution from a fresh pool (calls of the four operations
interleaved with worker steps), the ids returned by the `AddWorker` calls are
1, 2, 3, ... in call order: strictly increasing, none returned twice, and one
for each `AddWorker` call of a completed execution. -/
theorem C1_returned_ids_increasing (size : Nat) (es : List Event) :
    returnedIds (NewWorkerPool size) es =
        (List.range (returnedIds (NewWorkerPool size) es).length).map
          (fun (i : Nat) => 1 + (i : Int)) ∧
      (returnedIds (NewWorkerPool size) es).Pairwise (fun a b => a < b) ∧
      (returnedIds (NewWorkerPool size) es).Nodup ∧
      (∀ w, exec (NewWorkerPool size) es = some w →
        (returnedIds (NewWorkerPool size) es).length = es.count Event.addWorker ∧
        w.wp.nextWorkerId = 1 + ((returnedIds (NewWorkerPool size) es).length : Int)) := by
  have h := returnedIds_eq es (NewWorkerPool size)
  have hp : (returnedIds (NewWorkerPool size) es).Pairwise (fun a b => a < b) := by
    rw [h, List.pairwise_map]
    refine (List.pairwise_lt_range _).imp ?_
    intro a b hab
    have : (a : Int) < (b : Int) := by exact_mod_cast hab
    simp only [NewWorkerPool]
    omega
  refine ⟨h, hp, hp.imp (fun hab => ne_of_lt hab), ?_⟩
  intro w hw
  have hl := returnedIds_length es _ w hw
  refine ⟨hl, ?_⟩
  rw [hl]
  clear h hp hl
  suffices hgen : ∀ (es : List Event) (w0 w : World), exec w0 es = some w →
      w.wp.nextWorkerId = w0.wp.nextWorkerId + (es.count Event.addWorker : Int) by
    exact hgen es _ w hw
  intro es
  induction es with
  | nil =>
      intro w0 w he
      simp only [exec, Option.some.injEq] at he
      simp [he]
  | cons e es ih =>
      intro w0 w he
      obtain ⟨w2, h1, h2⟩ := (exec_cons _ _ _ _).1 he
      rw [ih w2 w h2, step_next h1, List.count_cons]
      by_cases hc : e = Event.addWorker
      · simp [hc]
        ring
      · simp [hc]

/-- C3: `RemoveWorker` on an id that is not in the registry returns false and
leaves the whole world as it was: registry, `nextWorkerId`, job queue, every
quit channel and the output. -/
theorem C3_remove_absent_noop (w : World) (id : Int)
    (h : ∀ quit, (id, quit) ∉ w.wp.quitChans) :
    RemoveWorker w id = .returned false w ∧
      (w.caller = .idle → step w (.removeWorker id) = some w) := by
  have h1 := RemoveWorker_absent h
  refine ⟨h1, ?_⟩
  intro hc
  simp [step, hc, h1, Outcome.world]

/-- C3 at a pool with worker 1 registered and the id 0. -/
theorem C3_remove_absent_noop_witness :
    (∀ quit, ((0 : Int), quit) ∉ (AddWorker (NewWorkerPool 3)).2.wp.quitChans) ∧
      RemoveWorker (AddWorker (NewWorkerPool 3)).2 0 =
        .returned false (AddWorker (NewWorkerPool 3)).2 :=
  ⟨mapGet_eq_none.1 (by decide),
    (C3_remove_absent_noop (AddWorker (NewWorkerPool 3)).2 0 (mapGet_eq_none.1 (by decide))).1⟩

/-- C4: `AddJob` on a pool with an empty registry returns after writing one
"no workers" line with the payload of the job; the job queue, the registry,
`nextWorkerId` and everything else stay as they were. -/
theorem C4_addjob_empty_registry_drops (w : World) (job : Job)
    (h : w.wp.quitChans = []) :
    AddJob w job = .returned () { w with out := w.out ++ [Note.noWorkers job.Entity] } ∧
      (AddJob w job).world.wp = w.wp ∧
      (AddJob w job).world.out = w.out ++ [Note.noWorkers job.Entity] := by
  have h1 : AddJob w job =
      .returned () { w with out := w.out ++ [Note.noWorkers job.Entity] } := by
    simp [AddJob, h]
  rw [h1]
  simp [Outcome.world]

/-- C4 at a fresh pool of capacity 10 and the job `x`. -/
theorem C4_addjob_empty_registry_drops_witness :
    (NewWorkerPool 10).wp.quitChans = [] ∧
      (AddJob (NewWorkerPool 10) (NewJob "x")).world.wp.jobs.buf = [] ∧
      (AddJob (NewWorkerPool 10) (NewJob "x")).world.out = [Note.noWorkers "x"] := by
  have h := C4_addjob_empty_registry_drops (NewWorkerPool 10) (NewJob "x") rfl
  refine ⟨rfl, ?_, ?_⟩
  · rw [h.2.1]
    rfl
  · rw [h.2.2]
    rfl

/-- C10: in every reachable world every registered quit channel is open and
every registered id lies in `[1, nextWorkerId)`; so `RemoveWorker` on a
registered id closes its channel without a panic and takes the id out of the
registry, the loop of `Shutdown` closes every registered channel without a
panic, and no closed channel is in the registry. -/
theorem C10_signal_fired_once (w : World) (hw : Reachable w) :
    (∀ id quit, (id, quit) ∈ w.wp.quitChans →
      w.chans[quit]? = some false ∧ 1 ≤ id ∧ id < w.wp.nextWorkerId) ∧
    (∀ id quit, (id, quit) ∈ w.wp.quitChans →
      ∃ w1, RemoveWorker w id = .returned true w1 ∧ w1.chans[quit]? = some true ∧
        ∀ q, (id, q) ∉ w1.wp.quitChans) ∧
    (∃ chans1 out1, fireAll w.wp.quitChans w.chans w.out = (true, chans1, out1) ∧
      ∀ id quit, (id, quit) ∈ w.wp.quitChans → chans1[quit]? = some true) ∧
    (∀ (quit : Nat), w.chans[quit]? = some true → ∀ id, (id, quit) ∉ w.wp.quitChans) := by
  have hi := hw.inv.1
  refine ⟨?_, ?_, ?_, ?_⟩
  · intro id quit hm
    exact ⟨hi.regOpen id quit hm, hi.regIds id quit hm⟩
  · intro id quit hm
    refine ⟨_, RemoveWorker_present hi hm, ?_, ?_⟩
    · show (w.chans.set quit true)[quit]? = some true
      rw [getElem?_set_true (hi.regOpen id quit hm)]
      simp
    · intro q hq
      exact (mem_mapDelete.1 hq).2 rfl
  · obtain ⟨chans1, h1, h2, -⟩ := fireAll_ok w.wp.quitChans w.chans w.out hi.handles hi.regOpen
    exact ⟨chans1, _, h1, h2⟩
  · intro quit hc id hm
    have := hi.regOpen id quit hm
    rw [hc] at this
    cases this

/-- C10 at a pool with workers 1 and 2 after the removal of worker 1. -/
theorem C10_signal_fired_once_witness :
    ∃ w, Reachable w ∧ w.wp.quitChans = [(2, 1)] ∧ w.chans = [true, false] ∧
      (∀ id quit, (id, quit) ∈ w.wp.quitChans →
        w.chans[quit]? = some false ∧ 1 ≤ id ∧ id < w.wp.nextWorkerId) :=
  ⟨(RemoveWorker (AddWorker (AddWorker (NewWorkerPool 2)).2).2 1).world,
    ⟨2, [.addWorker, .addWorker, .removeWorker 1], rfl⟩, rfl, rfl,
    (C10_signal_fired_once _ ⟨2, [.addWorker, .addWorker, .removeWorker 1], rfl⟩).1⟩

/-- C2: in every reachable world with the caller between calls, the id just
returned by `AddWorker` is registered, so that, whatever steps other than
`Shutdown` and `RemoveWorker` on this id come in between, the first
`RemoveWorker` on it returns true; and whatever steps follow, a second
`RemoveWorker` on it returns false and changes nothing. -/
theorem C2_remove_just_added (w : World) (hw : Reachable w) (hidle : w.caller = .idle)
    (es1 es2 : List Event) (w2 : World)
    (hes1 : ∀ e ∈ es1, e ≠ .shutdown ∧ e ≠ .removeWorker (AddWorker w).1)
    (h1 : exec (AddWorker w).2 es1 = some w2) :
    ∃ w3, RemoveWorker w2 (AddWorker w).1 = .returned true w3 ∧
      ∀ w4, exec w3 es2 = some w4 → RemoveWorker w4 (AddWorker w).1 = .returned false w4 := by
  have hstep : step w .addWorker = some (AddWorker w).2 := by simp [step, hidle]
  have hr0 : Reachable (AddWorker w).2 := hw.step hstep
  have hmem0 : ((AddWorker w).1, w.chans.length) ∈ (AddWorker w).2.wp.quitChans := by
    rw [AddWorker_quitChans hw.inv.1]
    simp [AddWorker]
  have hmem2 := exec_quitChans_persist es1 hr0.inv h1 hmem0 hes1
  have hi2 := (hr0.exec h1).inv.1
  refine ⟨_, RemoveWorker_present hi2 hmem2, ?_⟩
  intro w4 h4
  apply RemoveWorker_absent
  refine exec_absent_persist es2 h4 ?_ ?_
  · have hle := exec_next_le es1 h1
    show (AddWorker w).1 < w2.wp.nextWorkerId
    have : (AddWorker w).2.wp.nextWorkerId = (AddWorker w).1 + 1 := rfl
    omega
  · intro quit hq
    exact (mem_mapDelete.1 hq).2 rfl

/-- C2 at a fresh pool of capacity 2: worker 1 is added, then worker 2; the first
removal of 1 returns true, and after one more `AddWorker` and a `Shutdown` the
second returns false. -/
theorem C2_remove_just_added_witness :
    ∃ w3, RemoveWorker (AddWorker (AddWorker (NewWorkerPool 2)).2).2 1 = .returned true w3 ∧
      ∀ w4, exec w3 [.addWorker, .shutdown] = some w4 →
        RemoveWorker w4 1 = .returned false w4 :=
  C2_remove_just_added (NewWorkerPool 2) (Reachable.init 2) rfl [.addWorker]
    [.addWorker, .shutdown] _ (by decide) rfl

/-! ## Claims on the job queue -/

/-- C6: from every world reached without `Shutdown`, with the caller between
calls, a call of `Shutdown` returns under every scheduling of the workers
(some schedule ends in its return, no schedule runs longer than the buffered
jobs plus the running workers plus one, and while it has not returned some
worker step or its own return is possible); and when it has returned the
registry is empty, every goroutine ever spawned has left its loop, and the
job queue is closed. -/
theorem C6_shutdown_drains (size : Nat) (es0 : List Event) (w : World)
    (h0 : exec (NewWorkerPool size) es0 = some w) (hns : ∀ e ∈ es0, e ≠ .shutdown)
    (hidle : w.caller = .idle) :
    step w .shutdown = some (Shutdown w).world ∧
    (∃ es w2, (∀ e ∈ es, isCall e = false) ∧ exec (Shutdown w).world es = some w2 ∧
      w2.caller = .idle) ∧
    (∀ es w2, (∀ e ∈ es, isCall e = false) → exec (Shutdown w).world es = some w2 →
      es.length ≤ w.wp.jobs.buf.length + w.wp.wg + 1 ∧
      (w2.caller ≠ .idle → ∃ e w3, isCall e = false ∧ step w2 e = some w3) ∧
      (w2.caller = .idle →
        w2.wp.quitChans = [] ∧ Stopped w2 ∧ spawnedIds w2 = spawnedIds w ∧
        w2.wp.jobs.closed = true)) := by
  have hop := open_exec es0 (open_init size) hns h0
  obtain ⟨hph, hids, hm⟩ := shutdown_phase hop.inv hop.isOpen
  refine ⟨by simp [step, hidle], ?_, ?_⟩
  · rcases hph with p | p
    · obtain ⟨es, w2, h1, h2, h3⟩ := waiting_returns _ _ p rfl
      exact ⟨es, w2, h1, h2, h3.caller⟩
    · exact ⟨[], _, by simp, rfl, p.caller⟩
  · intro es w2 hes he
    obtain ⟨p2, m2, s2⟩ := nocall_exec es hph hes he
    refine ⟨by omega, ?_, ?_⟩
    · intro hni
      rcases p2 with p | p
      · exact waiting_progress p
      · exact absurd p.caller hni
    · intro hi2
      rcases p2 with p | p
      · rw [p.caller] at hi2
        cases hi2
      · exact ⟨p.reg, stopped_of_wg p.inv p.wg, s2.trans hids, p.closed⟩

/-- C6 at a pool with two workers, one job queued and worker 1 removed. -/
theorem C6_shutdown_drains_witness :
    ∃ w2, exec (Shutdown (RemoveWorker (AddJob (AddWorker (AddWorker
        (NewWorkerPool 2)).2).2 (NewJob "a")).world 1).world).world
        [.recvQuit 0, .recvJob 1, .recvQuit 1, .wake] = some w2 ∧
      w2.wp.quitChans = [] ∧ Stopped w2 ∧ spawnedIds w2 = [1, 2] ∧
      w2.wp.jobs.closed = true :=
  ⟨_, rfl, ((C6_shutdown_drains 2
    [.addWorker, .addWorker, .addJob (NewJob "a"), .removeWorker 1] _ rfl (by decide) rfl).2.2
    [.recvQuit 0, .recvJob 1, .recvQuit 1, .wake] _ (by decide) rfl).2.2 rfl⟩

/-- C7 fails when `AddWorker` comes between the two calls: after `Shutdown` and
`AddWorker` on a fresh pool the first `Shutdown` has returned (the caller is
between calls, the queue is closed), yet the second call finds worker 1
registered and running, closes its quit channel, writes its line, and is
blocked in `Wait` instead of failing at once. -/
theorem C7_counterexample :
    ∃ w, exec (NewWorkerPool 10) [.shutdown, .addWorker] = some w ∧
      w.caller = .idle ∧ w.wp.jobs.closed = true ∧
      w.wp.quitChans = [(1, 0)] ∧
      w.goroutines = [{ id := 1, quit := 0, running := true }] ∧
      w.chans = [false] ∧
      Shutdown w = .parked { w with
        wp := { w.wp with quitChans := [] },
        chans := [true],
        out := w.out ++ [Note.signalled 1],
        caller := .waiting } :=
  ⟨(AddWorker (Shutdown (NewWorkerPool 10)).world).2, rfl, rfl, rfl, rfl, rfl, rfl, rfl⟩

/-- C7 (amended): when `Shutdown` has returned on a pool (reached without an
earlier `Shutdown`), a second `Shutdown` call never returns normally,
whatever came in between: the caller stays blocked in `Wait` or the process
has panicked, and the panic can always be reached.  When no `AddWorker` call
came in between, the second call finds the registry empty and every
goroutine stopped, closes no quit channel, writes nothing, and panics at
once on closing the closed job queue; after that no step is possible. -/
theorem C7_second_shutdown_panics (size : Nat) (es0 : List Event) (w : World)
    (h0 : exec (NewWorkerPool size) es0 = some w) (hns : ∀ e ∈ es0, e ≠ .shutdown)
    (hidle : w.caller = .idle) (es : List Event) (w2 : World)
    (h2 : exec (Shutdown w).world es = some w2) (hidle2 : w2.caller = .idle) :
    (w2.wp.jobs.closed = true ∧ step w2 .shutdown = some (Shutdown w2).world ∧
      (∀ es2 w3, exec (Shutdown w2).world es2 = some w3 →
        w3.caller = .waiting ∨ w3.caller = .crashed) ∧
      ∃ es2 w3, exec (Shutdown w2).world es2 = some w3 ∧ w3.caller = .crashed) ∧
    ((∀ e ∈ es, e ≠ .addWorker ∧ e ≠ .shutdown) →
      w2.wp.quitChans = [] ∧ Stopped w2 ∧
      fireAll w2.wp.quitChans w2.chans w2.out = (true, w2.chans, w2.out) ∧
      Shutdown w2 = .panicked { w2 with caller := .crashed } ∧
      ∀ e, step (Shutdown w2).world e = none) := by
  have hop := open_exec es0 (open_init size) hns h0
  have hph := (shutdown_phase hop.inv hop.isOpen).1
  have hs1 : step w .shutdown = some (Shutdown w).world := by simp [step, hidle]
  have hr1 : Reachable (Shutdown w).world := Reachable.step ⟨size, es0, h0⟩ hs1
  have hr2 : Reachable w2 := hr1.exec h2
  have hb1 : (Shutdown w).world.caller = .waiting ∨ (Shutdown w).world.wp.jobs.closed = true := by
    rcases hph with p | p
    · exact .inl p.caller
    · exact .inr p.closed
  have hcl2 : w2.wp.jobs.closed = true := by
    rcases begun_exec es hr1.inv hb1 h2 with h | h
    · rw [hidle2] at h
      cases h
    · exact h
  refine ⟨⟨hcl2, by simp [step, hidle2], ?_, Shutdown_closed_crashes hr2.inv.1 hcl2⟩, ?_⟩
  · intro es2 w3 h3
    exact (doomed_exec es2 (doomed_Shutdown hr2.inv.1 hcl2) h3).caller
  · intro hes
    have hph3 : Waiting (Shutdown w).world ∨ Done (Shutdown w).world ∨
        Dead (Shutdown w).world := by
      rcases hph with p | p
      · exact .inl p
      · exact .inr (.inl p)
    have hp2 := (post_exec es hph3 (fun e he => (hes e he).1) h2).2
      (fun e he => (hes e he).2) hph
    rcases hp2 with p | p
    · rw [p.caller] at hidle2
      cases hidle2
    · have hsd := Shutdown_done p.reg p.wg p.closed
      refine ⟨p.reg, stopped_of_wg p.inv p.wg, ?_, hsd, ?_⟩
      · rw [p.reg]
        rfl
      · intro e
        rw [hsd]
        simp [step, Outcome.world]

/-- C7 at a pool with one worker: after the first `Shutdown` has returned and an
`AddJob` and a `RemoveWorker` call, the second `Shutdown` panics. -/
theorem C7_second_shutdown_panics_witness :
    ∃ w2, exec (Shutdown (AddWorker (NewWorkerPool 2)).2).world
        [.recvQuit 0, .wake, .addJob (NewJob "late"), .removeWorker 1] = some w2 ∧
      w2.caller = .idle ∧
      Shutdown w2 = .panicked { w2 with caller := .crashed } :=
  ⟨_, rfl, rfl, ((C7_second_shutdown_panics 2 [.addWorker] _ rfl (by decide) rfl
    [.recvQuit 0, .wake, .addJob (NewJob "late"), .removeWorker 1] _ rfl rfl).2
    (by decide)).2.2.2.1⟩

/-- C9 fails when `AddWorker` follows `Shutdown`: after the two calls on a fresh
pool the job queue is closed while goroutine 1 is running, and its receive
from the closed queue is ready (it reports the zero job). -/
theorem C9_counterexample :
    ∃ w, exec (NewWorkerPool 10) [.shutdown, .addWorker] = some w ∧
      w.wp.jobs.closed = true ∧
      w.goroutines = [{ id := 1, quit := 0, running := true }] ∧
      step w (.recvJob 0) =
        some { w with out := w.out ++ [Note.processing 1 ""] } :=
  ⟨(AddWorker (Shutdown (NewWorkerPool 10)).world).2, rfl, rfl, rfl, rfl⟩

/-- C9 (amended): in every world reached by an execution in which no
`AddWorker` call follows a `Shutdown` call, the job queue is closed only if
every goroutine spawned has left its loop; and in every reachable world the
only steps that close the queue are those of `Shutdown` (its call, when no
worker is left to wait for, or its return from `Wait`), taken when every
goroutine spawned has left its loop. -/
theorem C9_closed_only_when_stopped (size : Nat) (es : List Event) (w : World)
    (h : exec (NewWorkerPool size) es = some w) :
    (noAddAfterShutdown es = true → w.wp.jobs.closed = true → Stopped w) ∧
    (∀ e w1, step w e = some w1 → w.wp.jobs.closed = false → w1.wp.jobs.closed = true →
      (e = .shutdown ∨ e = .wake) ∧ Stopped w ∧ Stopped w1) := by
  have hi := (Reachable.inv ⟨size, es, h⟩).1
  refine ⟨?_, fun e w1 hs ho hc => close_step hi hs ho hc⟩
  intro hes hc
  rcases open_or_post_exec es (open_init size) hes h with p | p | p | p
  · rw [p.isOpen] at hc
    cases hc
  · rw [p.isOpen] at hc
    cases hc
  · exact stopped_of_wg p.inv p.wg
  · exact stopped_of_wg p.inv p.wg

/-- C9 at a pool with one worker and one job, shut down and drained. -/
theorem C9_closed_only_when_stopped_witness :
    ∃ w, exec (NewWorkerPool 2)
        [.addWorker, .addJob (NewJob "a"), .shutdown, .recvJob 0, .recvQuit 0, .wake] = some w ∧
      w.wp.jobs.closed = true ∧ Stopped w :=
  ⟨_, rfl, rfl, (C9_closed_only_when_stopped 2
    [.addWorker, .addJob (NewJob "a"), .shutdown, .recvJob 0, .recvQuit 0, .wake] _
    rfl).1 rfl rfl⟩

/-! ## Claims on the command loop -/

/-- C8 fails on these lines: `add two` calls `AddWorker` and `quit later` calls
`Shutdown` though neither is the bare token; the payload of the job line is
stripped of the white space around it; a blank line and the malformed
`remove` lines give no `AddJob` call; and a line of 65536 bytes ends the loop,
after which `main` calls `Shutdown`. -/
theorem C8_counterexample :
    turn (ascii "add two") = .addWorker ∧
      turn (ascii "quit later") = .shutdown ∧
      turn (ascii "  job 1 ") = .addJob (ascii "job 1") ∧
      turn (ascii "   ") = .skip ∧
      turn (ascii "remove") = .usage ∧
      turn (ascii "remove 1 2") = .usage ∧
      turn (ascii "remove x") = .invalid (ascii "x") ∧
      turn (List.replicate 65536 0x78) = .endLoop := by
  refine ⟨by decide, by decide, by decide, by decide, by decide, by decide, by decide, ?_⟩
  exact turn_long (by rw [List.length_replicate]; decide)

/-- C8 (amended): a line of 65536 bytes or more makes the scanner fail, the
loop ends and `main` calls `Shutdown`.  On every shorter line the loop strips
the white space around the text and looks at its first field only: an empty
stripped line does nothing; `AddWorker` is called exactly when the first
field is `add`, `Shutdown` exactly when it is `quit` (further fields are
ignored); `RemoveWorker(id)` exactly when the fields are `remove` and one
argument that `strconv.Atoi` parses to `id` (a `remove` line of another shape
is reported only); and a line with any other first field gives exactly one
`AddJob` whose payload is the stripped line.  The index `parts[0]` never
panics. -/
theorem C8_dispatch_first_field (raw : List UInt8) :
    (turn raw = .endLoop ↔ MaxScanTokenSize ≤ raw.length) ∧
    (turn raw = .skip ↔ raw.length < MaxScanTokenSize ∧ TrimSpace (dropCR raw) = []) ∧
    (turn raw = .addWorker ↔ raw.length < MaxScanTokenSize ∧
      (Fields (TrimSpace (dropCR raw))).head? = some (ascii "add")) ∧
    (∀ id, turn raw = .removeWorker id ↔ raw.length < MaxScanTokenSize ∧
      ∃ arg, Fields (TrimSpace (dropCR raw)) = [ascii "remove", arg] ∧ Atoi arg = some id) ∧
    (turn raw = .usage ↔ raw.length < MaxScanTokenSize ∧
      ∃ rest, Fields (TrimSpace (dropCR raw)) = ascii "remove" :: rest ∧ rest.length ≠ 1) ∧
    (∀ arg, turn raw = .invalid arg ↔ raw.length < MaxScanTokenSize ∧
      Fields (TrimSpace (dropCR raw)) = [ascii "remove", arg] ∧ Atoi arg = none) ∧
    (turn raw = .shutdown ↔ raw.length < MaxScanTokenSize ∧
      (Fields (TrimSpace (dropCR raw))).head? = some (ascii "quit")) ∧
    (∀ payload, turn raw = .addJob payload ↔ raw.length < MaxScanTokenSize ∧
      payload = TrimSpace (dropCR raw) ∧
      ∃ p0, (Fields (TrimSpace (dropCR raw))).head? = some p0 ∧
        p0 ≠ ascii "add" ∧ p0 ≠ ascii "remove" ∧ p0 ≠ ascii "quit") ∧
    turn raw ≠ .crash := by
  by_cases hlong : MaxScanTokenSize ≤ raw.length
  · have hn : ¬ raw.length < MaxScanTokenSize := by omega
    rw [turn_long hlong]
    simp [hlong, hn]
  · have hshort : raw.length < MaxScanTokenSize := by omega
    rw [turn_short hshort]
    simp only [hlong, hshort, true_and, iff_false]
    refine ⟨dispatch_ne_endLoop _, ?_⟩
    have har : ascii "add" ≠ ascii "remove" := by decide
    have haq : ascii "add" ≠ ascii "quit" := by decide
    have hrq : ascii "remove" ≠ ascii "quit" := by decide
    by_cases hl : TrimSpace (dropCR raw) = []
    · have hf : Fields (TrimSpace (dropCR raw)) = [] := by rw [hl]; rfl
      rw [dispatch_blank hl, hf]
      simp [hl]
    · obtain ⟨p0, rest, hf⟩ :=
        List.exists_cons_of_ne_nil (Fields_TrimSpace_ne_nil (dropCR raw) hl)
      rw [dispatch_not_blank hl, hf]
      simp only [List.head?_cons, Option.some.injEq, hl, iff_false]
      unfold dispatchParts
      by_cases h1 : p0 = ascii "add"
      · subst h1
        simp [har, haq]
      · by_cases h2 : p0 = ascii "remove"
        · subst h2
          match rest with
          | [] => simp [har.symm, hrq]
          | [arg] =>
              cases ha : Atoi arg with
              | none => simp [ha, har.symm, hrq]
              | some n => simp [ha, har.symm, hrq]
          | a :: b :: l => simp [har.symm, hrq]
        · by_cases h3 : p0 = ascii "quit"
          · subst h3
            simp [haq.symm, hrq.symm]
          · simp [h1, h2, h3]
            intro payload
            exact eq_comm

end GoPool
